import Mathlib

/-!
Formal model of the libvector Rust library (fixed 2/3/4-dimensional and
dynamic-length Euclidean vectors over f64).

The development works at two abstraction levels.

Level 1 (`F`, exact arithmetic with special values) is used for the
properties that are insensitive to rounding: structural properties of the
operations (zip truncation, shared radicand of magnitude and dot,
conversions, indexed access) and the propagation of the special values NaN
and infinity, whose rules do not depend on rounding.

Level 2 (`F64`, bit-accurate binary64) represents a double by sign,
integer significand and binary exponent, and implements round-to-nearest,
ties-to-even with gradual underflow (subnormals) and overflow to infinity,
as IEEE-754 prescribes for every arithmetic operation.  It is used for the
properties that DO depend on rounding: a square of a tiny value underflows
to zero (so a nonzero vector can have magnitude exactly 0, and normalizing
it divides by zero), and a square of a huge finite value overflows to
infinity (so a cross product of finite vectors can produce NaN through
Inf - Inf).

Modelling choices at level 1:
* An f64 value is modelled by the type `F`: an exact rational finite value
  `F.num q`, positive infinity `F.inf`, negative infinity `F.neginf`, or
  `F.nan`.  The IEEE-754 special-value rules for arithmetic (NaN propagation,
  infinity arithmetic, division by zero, square root of negatives) are
  modelled exactly; finite arithmetic is exact rational arithmetic, i.e.
  rounding, overflow, underflow and the negative zero are not modelled.
* `F.sqrt` on a nonnegative finite value is modelled by the monotone rational
  square root `Rat.sqrt`, which is exact on perfect squares and shares with
  the IEEE square root the properties the theorems below rely on:
  nonnegativity on nonnegative inputs, value zero exactly at zero, and the
  special-value rules sqrt(NaN) = NaN, sqrt(+inf) = +inf, sqrt(x) = NaN for
  x < 0.
* The IEEE comparisons of f64 (Rust `==` / `<=` on f64, and the derived
  `PartialEq` of the vector structs) are modelled by the Boolean functions
  `F.beq` / `F.le` and componentwise conjunctions thereof; in particular
  `F.beq F.nan F.nan = false`, as in IEEE-754.
* Rust panics (out-of-bounds `Vec` indexing) are modelled by `Option`:
  `none` is the panic.
* A Rust fixed-size array `[f64; n]` and an n-tuple of f64 are both modelled
  as ordered n-tuples of `F` values.

Modelling choices at level 2:
* A finite double is `F64.finite s m t` with value (-1)^s * m * 2^t.  All
  operations produce canonical representations: zero is (false, 0, -1074),
  a subnormal has t = -1074 and m < 2^52, a normal has 2^52 <= m < 2^53 and
  -1074 <= t <= 971.  The negative zero is identified with zero (the library
  never distinguishes them observably in the verified properties).
* Multiplication, addition and subtraction compute the exact value and round
  it with round-to-nearest, ties-to-even, underflowing to zero or subnormals
  and overflowing to infinity exactly as binary64 does; division rounds the
  exact quotient the same way.  The square root uses a Newton integer square
  root; as with level 1, the theorems rely only on its nonnegativity, its
  exactness at zero and the special-value rules, which match IEEE-754.
* `F64.beq` / `F64.le` are the IEEE comparisons on canonical
  representations (NaN incomparable, zeros equal).
-/

namespace LibVector

set_option maxRecDepth 10000

/-- Model of an IEEE-754 double: an exact finite rational, an infinity of
either sign, or NaN.  All NaN payloads are identified; negative zero is
identified with zero. -/
inductive F : Type where
  | num (q : ℚ) : F
  | inf : F
  | neginf : F
  | nan : F
deriving DecidableEq

namespace F

/-- IEEE-754 addition on the model (exact in the finite case). -/
def add : F → F → F
  | nan, _ => nan
  | _, nan => nan
  | num a, num b => num (a + b)
  | inf, neginf => nan
  | neginf, inf => nan
  | inf, _ => inf
  | _, inf => inf
  | neginf, _ => neginf
  | _, neginf => neginf

/-- IEEE-754 subtraction on the model (exact in the finite case). -/
def sub : F → F → F
  | nan, _ => nan
  | _, nan => nan
  | num a, num b => num (a - b)
  | inf, inf => nan
  | neginf, neginf => nan
  | inf, _ => inf
  | neginf, _ => neginf
  | _, inf => neginf
  | _, neginf => inf

/-- IEEE-754 multiplication on the model (exact in the finite case);
zero times an infinity is NaN. -/
def mul : F → F → F
  | nan, _ => nan
  | _, nan => nan
  | num a, num b => num (a * b)
  | inf, inf => inf
  | inf, neginf => neginf
  | neginf, inf => neginf
  | neginf, neginf => inf
  | inf, num b => if 0 < b then inf else if b < 0 then neginf else nan
  | num a, inf => if 0 < a then inf else if a < 0 then neginf else nan
  | neginf, num b => if 0 < b then neginf else if b < 0 then inf else nan
  | num a, neginf => if 0 < a then neginf else if a < 0 then inf else nan

/-- IEEE-754 division on the model (exact in the finite case): 0/0 is NaN,
x/0 for finite nonzero x is a signed infinity, inf/inf is NaN, finite/inf
is zero. -/
def div : F → F → F
  | nan, _ => nan
  | _, nan => nan
  | num a, num b =>
      if b = 0 then (if a = 0 then nan else if 0 < a then inf else neginf)
      else num (a / b)
  | inf, inf => nan
  | inf, neginf => nan
  | neginf, inf => nan
  | neginf, neginf => nan
  | inf, num b => if b < 0 then neginf else inf
  | neginf, num b => if b < 0 then inf else neginf
  | num _, inf => num 0
  | num _, neginf => num 0

/-- IEEE-754 negation on the model. -/
def neg : F → F
  | num a => num (-a)
  | inf => neginf
  | neginf => inf
  | nan => nan

/-- Model of f64 square root: NaN on NaN and on negative inputs (including
negative infinity), +inf on +inf, and the rational square root on
nonnegative finite values. -/
def sqrt : F → F
  | nan => nan
  | neginf => nan
  | inf => inf
  | num q => if q < 0 then nan else num (Rat.sqrt q)

/-- IEEE-754 equality comparison (Rust f64 ==): NaN compares unequal to
everything, including itself. -/
def beq : F → F → Bool
  | num a, num b => decide (a = b)
  | inf, inf => true
  | neginf, neginf => true
  | _, _ => false

/-- IEEE-754 less-or-equal comparison (Rust f64 <=): any comparison with
NaN is false. -/
def le : F → F → Bool
  | nan, _ => false
  | _, nan => false
  | num a, num b => decide (a ≤ b)
  | neginf, _ => true
  | _, inf => true
  | _, _ => false

/-- Whether the modelled double is a finite value. -/
def isFinite : F → Bool
  | num _ => true
  | _ => false

theorem add_nan_left (x : F) : F.add F.nan x = F.nan := by
  cases x <;> rfl

theorem add_nan_right (x : F) : F.add x F.nan = F.nan := by
  cases x <;> rfl

theorem add_zero_left (x : F) : F.add (F.num 0) x = x := by
  cases x <;> simp [F.add]

theorem mul_nan_right (x : F) : F.mul x F.nan = F.nan := by
  cases x <;> rfl

theorem add_inf_left (x : F) (h : x ≠ F.neginf) (hn : x ≠ F.nan) :
    F.add F.inf x = F.inf := by
  cases x <;> simp_all [F.add]

theorem beq_num_zero {m : F} (h : F.beq m (F.num 0) = true) : m = F.num 0 := by
  cases m <;> simp_all [F.beq]

end F

/-- Model of the Rust struct Vector2 of src/vector2.rs: two public f64
fields x and y. -/
structure Vector2 : Type where
  x : F
  y : F
deriving DecidableEq

namespace Vector2

/-- Vector2::dot from src/vector2.rs: self.x * other.x + self.y * other.y. -/
def dot (a other : Vector2) : F :=
  (a.x.mul other.x).add (a.y.mul other.y)

/-- Vector2::magnitude from src/vector2.rs: (self.x * self.x + self.y * self.y).sqrt(). -/
def magnitude (a : Vector2) : F :=
  ((a.x.mul a.x).add (a.y.mul a.y)).sqrt

/-- Vector2::normalize from src/vector2.rs: each component divided by the
magnitude (computed once). -/
def normalize (a : Vector2) : Vector2 :=
  ⟨a.x.div a.magnitude, a.y.div a.magnitude⟩

/-- From tuple (f64, f64) for Vector2 from src/vector2.rs: x = v.0, y = v.1. -/
def fromTuple (v : F × F) : Vector2 :=
  ⟨v.1, v.2⟩

/-- From Vector2 for (f64, f64) from src/vector2.rs: (v.x, v.y). -/
def toTuple (v : Vector2) : F × F :=
  (v.x, v.y)

/-- From array of two f64 for Vector2 from src/vector2.rs: x = v(0), y = v(1);
the two-element array is modelled as an ordered pair. -/
def fromArray (v : F × F) : Vector2 :=
  ⟨v.1, v.2⟩

/-- From Vector2 for an array of two f64 from src/vector2.rs: the components
x, y in order. -/
def toArray (v : Vector2) : F × F :=
  (v.x, v.y)

/-- The derived PartialEq of Vector2: componentwise IEEE equality of the
fields in order. -/
def beq (a b : Vector2) : Bool :=
  F.beq a.x b.x && F.beq a.y b.y

end Vector2

/-- Model of the Rust struct Vector3 of src/vector3.rs: three public f64
fields x, y, z. -/
structure Vector3 : Type where
  x : F
  y : F
  z : F
deriving DecidableEq

namespace Vector3

/-- Vector3::cross from src/vector3.rs: the standard 3D cross product,
componentwise (y*z - z*y, z*x - x*z, x*y - y*x) of self and other. -/
def cross (a other : Vector3) : Vector3 :=
  ⟨(a.y.mul other.z).sub (a.z.mul other.y),
   (a.z.mul other.x).sub (a.x.mul other.z),
   (a.x.mul other.y).sub (a.y.mul other.x)⟩

/-- Vector3::dot from src/vector3.rs. -/
def dot (a other : Vector3) : F :=
  ((a.x.mul other.x).add (a.y.mul other.y)).add (a.z.mul other.z)

/-- Vector3::magnitude from src/vector3.rs: (x*x + y*y + z*z).sqrt(). -/
def magnitude (a : Vector3) : F :=
  (((a.x.mul a.x).add (a.y.mul a.y)).add (a.z.mul a.z)).sqrt

/-- Vector3::normalize from src/vector3.rs. -/
def normalize (a : Vector3) : Vector3 :=
  ⟨a.x.div a.magnitude, a.y.div a.magnitude, a.z.div a.magnitude⟩

/-- Componentwise negation of a Vector3; the library exposes no negation
operator, this is the mathematical negation used by the specification in
the sentence cross(a,b) == -cross(b,a). -/
def neg (a : Vector3) : Vector3 :=
  ⟨a.x.neg, a.y.neg, a.z.neg⟩

/-- From array of three f64 for Vector3 from src/vector3.rs; the array is
modelled as an ordered triple. -/
def fromArray (arr : F × F × F) : Vector3 :=
  ⟨arr.1, arr.2.1, arr.2.2⟩

/-- Into array of three f64 for Vector3 from src/vector3.rs. -/
def toArray (v : Vector3) : F × F × F :=
  (v.x, v.y, v.z)

/-- From tuple (f64, f64, f64) for Vector3 from src/vector3.rs. -/
def fromTuple (tuple : F × F × F) : Vector3 :=
  ⟨tuple.1, tuple.2.1, tuple.2.2⟩

/-- Into tuple (f64, f64, f64) for Vector3 from src/vector3.rs. -/
def toTuple (v : Vector3) : F × F × F :=
  (v.x, v.y, v.z)

/-- The derived PartialEq of Vector3: componentwise IEEE equality. -/
def beq (a b : Vector3) : Bool :=
  F.beq a.x b.x && F.beq a.y b.y && F.beq a.z b.z

end Vector3

/-- Model of the Rust struct Vector4 of src/vector4.rs: four private f64
fields a, b, c, d. -/
structure Vector4 : Type where
  a : F
  b : F
  c : F
  d : F
deriving DecidableEq

namespace Vector4

/-- Vector4::dot from src/vector4.rs. -/
def dot (v other : Vector4) : F :=
  (((v.a.mul other.a).add (v.b.mul other.b)).add (v.c.mul other.c)).add
    (v.d.mul other.d)

/-- Vector4::magnitude from src/vector4.rs: (a*a + b*b + c*c + d*d).sqrt(). -/
def magnitude (v : Vector4) : F :=
  ((((v.a.mul v.a).add (v.b.mul v.b)).add (v.c.mul v.c)).add
    (v.d.mul v.d)).sqrt

/-- Vector4::normalize from src/vector4.rs. -/
def normalize (v : Vector4) : Vector4 :=
  ⟨v.a.div v.magnitude, v.b.div v.magnitude, v.c.div v.magnitude,
   v.d.div v.magnitude⟩

/-- From array of four f64 for Vector4 from src/vector4.rs; the array is
modelled as an ordered quadruple. -/
def fromArray (array : F × F × F × F) : Vector4 :=
  ⟨array.1, array.2.1, array.2.2.1, array.2.2.2⟩

/-- From Vector4 for an array of four f64 from src/vector4.rs. -/
def toArray (v : Vector4) : F × F × F × F :=
  (v.a, v.b, v.c, v.d)

/-- From tuple for Vector4 from src/vector4.rs. -/
def fromTuple (tuple : F × F × F × F) : Vector4 :=
  ⟨tuple.1, tuple.2.1, tuple.2.2.1, tuple.2.2.2⟩

/-- From Vector4 for a tuple from src/vector4.rs. -/
def toTuple (v : Vector4) : F × F × F × F :=
  (v.a, v.b, v.c, v.d)

/-- The derived PartialEq of Vector4: componentwise IEEE equality. -/
def beq (v w : Vector4) : Bool :=
  F.beq v.a w.a && F.beq v.b w.b && F.beq v.c w.c && F.beq v.d w.d

end Vector4

/-- Model of the Rust struct DynamicVector of src/dynamic_vector.rs: a
Vec of f64, modelled as a list of F. -/
structure DynamicVector : Type where
  data : List F
deriving DecidableEq

namespace DynamicVector

/-- DynamicVector::new from src/dynamic_vector.rs: pushes 0.0 length
times into a fresh buffer. -/
def new (length : Nat) : DynamicVector :=
  ⟨List.replicate length (F.num 0)⟩

/-- The length of the underlying buffer. -/
def length (d : DynamicVector) : Nat :=
  d.data.length

/-- DynamicVector::get from src/dynamic_vector.rs: self.data(index).
The Rust indexing panics when index is out of bounds; the panic is
modelled by none. -/
def get (d : DynamicVector) (index : Nat) : Option F :=
  d.data.get? index

/-- DynamicVector::set from src/dynamic_vector.rs: writes value at index
into the buffer.  The Rust indexing panics when index is out of bounds;
the panic is modelled by none, success returns the updated vector. -/
def set (d : DynamicVector) (index : Nat) (value : F) : Option DynamicVector :=
  if index < d.data.length then some ⟨d.data.set index value⟩ else none

/-- DynamicVector::dot from src/dynamic_vector.rs: zip with the other
buffer, multiply pairwise, sum (a left fold starting from 0.0, as the
Rust iterator sum does). -/
def dot (d other : DynamicVector) : F :=
  (List.zipWith F.mul d.data other.data).foldl F.add (F.num 0)

/-- DynamicVector::magnitude from src/dynamic_vector.rs: the square root
of the sum of squares of the buffer. -/
def magnitude (d : DynamicVector) : F :=
  ((d.data.map fun a => F.mul a a).foldl F.add (F.num 0)).sqrt

/-- DynamicVector::normalize from src/dynamic_vector.rs: the magnitude is
computed once and every component is divided by it. -/
def normalize (d : DynamicVector) : DynamicVector :=
  ⟨d.data.map fun a => F.div a d.magnitude⟩

end DynamicVector

theorem ratSqrt_eq_zero {c : ℚ} (hc : 0 ≤ c) : Rat.sqrt c = 0 ↔ c = 0 := by
  constructor
  · intro h
    have hden : Nat.sqrt c.den ≠ 0 := by
      simp [Nat.sqrt_eq_zero]
    rw [Rat.sqrt, Rat.mkRat_eq_zero hden] at h
    have hnum : 0 ≤ c.num := Rat.num_nonneg.mpr hc
    rw [Int.sqrt] at h
    have h2 : Nat.sqrt c.num.toNat = 0 := by exact_mod_cast h
    rw [Nat.sqrt_eq_zero] at h2
    have : c.num = 0 := by omega
    exact Rat.num_eq_zero.mp this
  · rintro rfl
    decide

theorem foldl_add_nan (l : List F) : l.foldl F.add F.nan = F.nan := by
  induction l with
  | nil => rfl
  | cons x xs ih => simpa [List.foldl, F.add_nan_left] using ih

theorem foldl_add_nan_mem (l : List F) (acc : F) (h : F.nan ∈ l) :
    l.foldl F.add acc = F.nan := by
  induction l generalizing acc with
  | nil => cases h
  | cons x xs ih =>
    rcases List.mem_cons.mp h with h1 | h2
    · rw [← h1]
      simp [List.foldl, F.add_nan_right, foldl_add_nan]
    · exact ih _ h2

theorem foldl_add_inf (l : List F)
    (hl : ∀ x ∈ l, (∃ q, x = F.num q) ∨ x = F.inf) :
    l.foldl F.add F.inf = F.inf := by
  induction l with
  | nil => rfl
  | cons x xs ih =>
    have hxs : ∀ y ∈ xs, (∃ q, y = F.num q) ∨ y = F.inf := fun y hy =>
      hl y (List.mem_cons_of_mem _ hy)
    rcases hl x (List.mem_cons_self _ _) with ⟨q, rfl⟩ | rfl
    · simpa [List.foldl, F.add] using ih hxs
    · simpa [List.foldl, F.add] using ih hxs

theorem foldl_add_num_inf (l : List F) (c : ℚ)
    (hl : ∀ x ∈ l, (∃ q, x = F.num q) ∨ x = F.inf) (hi : F.inf ∈ l) :
    l.foldl F.add (F.num c) = F.inf := by
  induction l generalizing c with
  | nil => cases hi
  | cons x xs ih =>
    have hxs : ∀ y ∈ xs, (∃ q, y = F.num q) ∨ y = F.inf := fun y hy =>
      hl y (List.mem_cons_of_mem _ hy)
    rcases hl x (List.mem_cons_self _ _) with ⟨q, rfl⟩ | rfl
    · have hi2 : F.inf ∈ xs := by
        rcases List.mem_cons.mp hi with h | h
        · cases h
        · exact h
      simpa [List.foldl, F.add] using ih _ hxs hi2
    · have hstep : F.add (F.num c) F.inf = F.inf := rfl
      simpa [List.foldl, hstep] using foldl_add_inf xs hxs

theorem foldl_sq_eval (l : List F) (c : ℚ) (hc : 0 ≤ c)
    (hl : ∀ x ∈ l, ∃ q, x = F.num q) :
    ∃ s : ℚ, 0 ≤ s ∧
      (l.map fun a => F.mul a a).foldl F.add (F.num c) = F.num s ∧
      (s = 0 ↔ c = 0 ∧ ∀ x ∈ l, x = F.num 0) := by
  induction l generalizing c with
  | nil => exact ⟨c, hc, rfl, by simp⟩
  | cons x xs ih =>
    obtain ⟨q, rfl⟩ := hl x (List.mem_cons_self _ _)
    have hxs : ∀ y ∈ xs, ∃ r, y = F.num r := fun y hy =>
      hl y (List.mem_cons_of_mem _ hy)
    have hc2 : 0 ≤ c + q * q := add_nonneg hc (mul_self_nonneg q)
    obtain ⟨s, hs0, hfold, hiff⟩ := ih (c + q * q) hc2 hxs
    refine ⟨s, hs0, ?_, ?_⟩
    · simpa [List.foldl, F.mul, F.add] using hfold
    · rw [hiff]
      constructor
      · rintro ⟨hcq, hall⟩
        have hq : q = 0 := by nlinarith [mul_self_nonneg q]
        have hc0 : c = 0 := by nlinarith [mul_self_nonneg q]
        refine ⟨hc0, fun y hy => ?_⟩
        rcases List.mem_cons.mp hy with h | h
        · rw [h, hq]
        · exact hall y h
      · rintro ⟨hc0, hall⟩
        have hq0 : q = 0 := by
          have := hall (F.num q) (List.mem_cons_self _ _)
          simpa using this
        exact ⟨by rw [hc0, hq0]; ring, fun y hy => hall y (List.mem_cons_of_mem _ hy)⟩

theorem data_cases (l : List F) :
    F.nan ∈ l ∨ (F.nan ∉ l ∧ (F.inf ∈ l ∨ F.neginf ∈ l)) ∨
      (∀ x ∈ l, ∃ q, x = F.num q) := by
  by_cases h1 : F.nan ∈ l
  · exact Or.inl h1
  by_cases h2 : F.inf ∈ l
  · exact Or.inr (Or.inl ⟨h1, Or.inl h2⟩)
  by_cases h3 : F.neginf ∈ l
  · exact Or.inr (Or.inl ⟨h1, Or.inr h3⟩)
  refine Or.inr (Or.inr fun x hx => ?_)
  cases x with
  | num q => exact ⟨q, rfl⟩
  | inf => exact absurd hx h2
  | neginf => exact absurd hx h3
  | nan => exact absurd hx h1

namespace DynamicVector

theorem magnitude_of_nan_mem (d : DynamicVector) (h : F.nan ∈ d.data) :
    d.magnitude = F.nan := by
  have hm : F.nan ∈ d.data.map fun a => F.mul a a := by
    refine List.mem_map.mpr ⟨F.nan, h, rfl⟩
  rw [magnitude, foldl_add_nan_mem _ _ hm]
  rfl

theorem magnitude_of_inf_mem (d : DynamicVector) (hn : F.nan ∉ d.data)
    (hi : F.inf ∈ d.data ∨ F.neginf ∈ d.data) : d.magnitude = F.inf := by
  have hsq : ∀ y ∈ d.data.map fun a => F.mul a a,
      (∃ q, y = F.num q) ∨ y = F.inf := by
    intro y hy
    obtain ⟨x, hx, rfl⟩ := List.mem_map.mp hy
    cases x with
    | num q => exact Or.inl ⟨q * q, rfl⟩
    | inf => exact Or.inr rfl
    | neginf => exact Or.inr rfl
    | nan => exact absurd hx hn
  have hmem : F.inf ∈ d.data.map fun a => F.mul a a := by
    rcases hi with h | h
    · exact List.mem_map.mpr ⟨F.inf, h, rfl⟩
    · exact List.mem_map.mpr ⟨F.neginf, h, rfl⟩
  rw [magnitude, foldl_add_num_inf _ _ hsq hmem]
  rfl

theorem magnitude_of_all_num (d : DynamicVector)
    (h : ∀ x ∈ d.data, ∃ q, x = F.num q) :
    ∃ s : ℚ, 0 ≤ s ∧ d.magnitude = F.num (Rat.sqrt s) ∧
      (s = 0 ↔ ∀ x ∈ d.data, x = F.num 0) := by
  obtain ⟨s, hs0, hfold, hiff⟩ := foldl_sq_eval d.data 0 le_rfl h
  refine ⟨s, hs0, ?_, ?_⟩
  · rw [magnitude, hfold, F.sqrt, if_neg (not_lt.mpr hs0)]
  · rw [hiff]
    simp

theorem mag_nonneg (d : DynamicVector) (h : ∀ x ∈ d.data, x ≠ F.nan) :
    F.le (F.num 0) d.magnitude = true := by
  rcases data_cases d.data with h1 | ⟨h2, h3⟩ | h4
  · exact absurd rfl (h F.nan h1)
  · rw [magnitude_of_inf_mem d h2 h3]
    rfl
  · obtain ⟨s, hs0, hm, _⟩ := magnitude_of_all_num d h4
    rw [hm]
    simp [F.le, Rat.sqrt_nonneg]

theorem mag_zero_iff (d : DynamicVector) :
    F.beq d.magnitude (F.num 0) = true ↔ ∀ x ∈ d.data, x = F.num 0 := by
  rcases data_cases d.data with h1 | ⟨h2, h3⟩ | h4
  · rw [magnitude_of_nan_mem d h1]
    simp only [F.beq]
    constructor
    · intro h
      cases h
    · intro hall
      cases hall F.nan h1
  · rw [magnitude_of_inf_mem d h2 h3]
    simp only [F.beq]
    constructor
    · intro h
      cases h
    · intro hall
      rcases h3 with h | h
      · cases hall F.inf h
      · cases hall F.neginf h
  · obtain ⟨s, hs0, hm, hiff⟩ := magnitude_of_all_num d h4
    rw [hm, ← hiff, ← ratSqrt_eq_zero hs0]
    simp [F.beq]

end DynamicVector

theorem v2_mag_bridge (a : Vector2) :
    a.magnitude = DynamicVector.magnitude ⟨[a.x, a.y]⟩ := by
  simp [Vector2.magnitude, DynamicVector.magnitude, F.add_zero_left]

theorem v3_mag_bridge (a : Vector3) :
    a.magnitude = DynamicVector.magnitude ⟨[a.x, a.y, a.z]⟩ := by
  simp [Vector3.magnitude, DynamicVector.magnitude, F.add_zero_left]

theorem v4_mag_bridge (v : Vector4) :
    v.magnitude = DynamicVector.magnitude ⟨[v.a, v.b, v.c, v.d]⟩ := by
  simp [Vector4.magnitude, DynamicVector.magnitude, F.add_zero_left]

theorem zipWith_eq_range_map (f : F → F → F) :
    ∀ l1 l2 : List F, List.zipWith f l1 l2 =
      (List.range (min l1.length l2.length)).map
        (fun i => f (l1.getD i (F.num 0)) (l2.getD i (F.num 0))) := by
  intro l1
  induction l1 with
  | nil =>
    intro l2
    simp
  | cons x xs ih =>
    intro l2
    cases l2 with
    | nil => simp
    | cons y ys =>
      simp only [List.zipWith_cons_cons, List.length_cons, Nat.succ_min_succ,
        List.range_succ_eq_map, List.map_cons, List.getD_cons_zero, List.map_map]
      rw [ih ys]
      congr 1

theorem zipWith_mul_self (l : List F) :
    List.zipWith F.mul l l = l.map fun a => F.mul a a := by
  induction l with
  | nil => rfl
  | cons x xs ih => simp [List.zipWith_cons_cons, ih]

theorem F.beq_self_of_finite (x : F) (h : x.isFinite = true) :
    F.beq x x = true := by
  cases x <;> simp_all [F.isFinite, F.beq]

theorem ratSqrt_zero : Rat.sqrt 0 = 0 := by
  decide

theorem F.div_zero_zero : F.div (F.num 0) (F.num 0) = F.nan := by
  simp [F.div]

theorem v2_mag_zero : Vector2.magnitude ⟨F.num 0, F.num 0⟩ = F.num 0 := by
  simp [Vector2.magnitude, F.mul, F.add, F.sqrt, ratSqrt_zero]

theorem v3_mag_zero :
    Vector3.magnitude ⟨F.num 0, F.num 0, F.num 0⟩ = F.num 0 := by
  simp [Vector3.magnitude, F.mul, F.add, F.sqrt, ratSqrt_zero]

theorem v4_mag_zero :
    Vector4.magnitude ⟨F.num 0, F.num 0, F.num 0, F.num 0⟩ = F.num 0 := by
  simp [Vector4.magnitude, F.mul, F.add, F.sqrt, ratSqrt_zero]

theorem get?_isSome_iff (l : List F) (n : Nat) :
    (l.get? n).isSome = true ↔ n < l.length := by
  rw [List.get?_eq_getElem?]
  constructor
  · intro h
    by_contra hn
    rw [List.getElem?_eq_none (Nat.le_of_not_lt hn)] at h
    cases h
  · intro h
    rw [List.getElem?_eq_getElem h]
    rfl

/-- C3: the dot product of two DynamicVectors of any lengths, including
unequal ones, is the sum over i below the minimum of the two lengths of the
products of matching components (truncate-to-shorter zip semantics); the
operation is total, so no length mismatch is ever signalled. -/
theorem C3_dot_truncating_zip :
    ∀ a b : DynamicVector, a.dot b =
      ((List.range (min a.length b.length)).map
        (fun i => F.mul (a.data.getD i (F.num 0)) (b.data.getD i (F.num 0)))).foldl
        F.add (F.num 0) := by
  intro a b
  rw [DynamicVector.dot, zipWith_eq_range_map]
  rfl

/-- C4: for every vector of any of the four vector types, the magnitude is
the square root of the dot product of the vector with itself. -/
theorem C4_magnitude_eq_sqrt_dot :
    (∀ a : Vector2, a.magnitude = F.sqrt (a.dot a)) ∧
    (∀ a : Vector3, a.magnitude = F.sqrt (a.dot a)) ∧
    (∀ v : Vector4, v.magnitude = F.sqrt (v.dot v)) ∧
    (∀ d : DynamicVector, d.magnitude = F.sqrt (d.dot d)) := by
  refine ⟨fun a => rfl, fun a => rfl, fun v => rfl, fun d => ?_⟩
  rw [DynamicVector.magnitude, DynamicVector.dot, zipWith_mul_self]

/-- C5: the claim asserts both that magnitude is NaN when some component is
NaN and that it is +Infinity when some component is an infinity; a vector
with one NaN and one infinite component satisfies the second premise but
the code returns NaN, not +Infinity. -/
theorem C5_counterexample :
    Vector2.magnitude ⟨F.nan, F.inf⟩ ≠ F.inf := by
  decide

/-- C5 (amended): for every vector of any of the four vector types, the
magnitude is NaN whenever some component is NaN, and is +Infinity whenever
some component is an infinity of either sign and no component is NaN. -/
theorem C5_magnitude_special_values :
    (∀ a : Vector2,
      ((a.x = F.nan ∨ a.y = F.nan) → a.magnitude = F.nan) ∧
      (a.x ≠ F.nan → a.y ≠ F.nan →
        (a.x = F.inf ∨ a.x = F.neginf ∨ a.y = F.inf ∨ a.y = F.neginf) →
        a.magnitude = F.inf)) ∧
    (∀ a : Vector3,
      ((a.x = F.nan ∨ a.y = F.nan ∨ a.z = F.nan) → a.magnitude = F.nan) ∧
      (a.x ≠ F.nan → a.y ≠ F.nan → a.z ≠ F.nan →
        (a.x = F.inf ∨ a.x = F.neginf ∨ a.y = F.inf ∨ a.y = F.neginf ∨
          a.z = F.inf ∨ a.z = F.neginf) →
        a.magnitude = F.inf)) ∧
    (∀ v : Vector4,
      ((v.a = F.nan ∨ v.b = F.nan ∨ v.c = F.nan ∨ v.d = F.nan) →
        v.magnitude = F.nan) ∧
      (v.a ≠ F.nan → v.b ≠ F.nan → v.c ≠ F.nan → v.d ≠ F.nan →
        (v.a = F.inf ∨ v.a = F.neginf ∨ v.b = F.inf ∨ v.b = F.neginf ∨
          v.c = F.inf ∨ v.c = F.neginf ∨ v.d = F.inf ∨ v.d = F.neginf) →
        v.magnitude = F.inf)) ∧
    (∀ d : DynamicVector,
      (F.nan ∈ d.data → d.magnitude = F.nan) ∧
      (F.nan ∉ d.data → (F.inf ∈ d.data ∨ F.neginf ∈ d.data) →
        d.magnitude = F.inf)) := by
  refine ⟨fun a => ⟨fun h => ?_, fun hx hy h => ?_⟩,
    fun a => ⟨fun h => ?_, fun hx hy hz h => ?_⟩,
    fun v => ⟨fun h => ?_, fun h1 h2 h3 h4 h => ?_⟩,
    fun d => ⟨fun h => DynamicVector.magnitude_of_nan_mem d h,
      fun h1 h2 => DynamicVector.magnitude_of_inf_mem d h1 h2⟩⟩
  · rw [v2_mag_bridge]
    refine DynamicVector.magnitude_of_nan_mem _ ?_
    rcases h with h | h <;> simp [h]
  · rw [v2_mag_bridge]
    refine DynamicVector.magnitude_of_inf_mem _ ?_ ?_
    · simp only [List.mem_cons, List.not_mem_nil, or_false]
      rintro (h | h)
      · exact hx h.symm
      · exact hy h.symm
    · rcases h with h | h | h | h
      · exact Or.inl (by simp [h])
      · exact Or.inr (by simp [h])
      · exact Or.inl (by simp [h])
      · exact Or.inr (by simp [h])
  · rw [v3_mag_bridge]
    refine DynamicVector.magnitude_of_nan_mem _ ?_
    rcases h with h | h | h <;> simp [h]
  · rw [v3_mag_bridge]
    refine DynamicVector.magnitude_of_inf_mem _ ?_ ?_
    · simp only [List.mem_cons, List.not_mem_nil, or_false]
      rintro (h | h | h)
      · exact hx h.symm
      · exact hy h.symm
      · exact hz h.symm
    · rcases h with h | h | h | h | h | h
      · exact Or.inl (by simp [h])
      · exact Or.inr (by simp [h])
      · exact Or.inl (by simp [h])
      · exact Or.inr (by simp [h])
      · exact Or.inl (by simp [h])
      · exact Or.inr (by simp [h])
  · rw [v4_mag_bridge]
    refine DynamicVector.magnitude_of_nan_mem _ ?_
    rcases h with h | h | h | h <;> simp [h]
  · rw [v4_mag_bridge]
    refine DynamicVector.magnitude_of_inf_mem _ ?_ ?_
    · simp only [List.mem_cons, List.not_mem_nil, or_false]
      rintro (h | h | h | h)
      · exact h1 h.symm
      · exact h2 h.symm
      · exact h3 h.symm
      · exact h4 h.symm
    · rcases h with h | h | h | h | h | h | h | h
      · exact Or.inl (by simp [h])
      · exact Or.inr (by simp [h])
      · exact Or.inl (by simp [h])
      · exact Or.inr (by simp [h])
      · exact Or.inl (by simp [h])
      · exact Or.inr (by simp [h])
      · exact Or.inl (by simp [h])
      · exact Or.inr (by simp [h])

/-- C5 witness: a Vector2 with a NaN component has NaN magnitude, and one
with a +Infinity component and no NaN has +Infinity magnitude. -/
theorem C5_witness :
    Vector2.magnitude ⟨F.nan, F.num 0⟩ = F.nan ∧
    Vector2.magnitude ⟨F.inf, F.num 0⟩ = F.inf :=
  ⟨(C5_magnitude_special_values.1 ⟨F.nan, F.num 0⟩).1 (Or.inl rfl),
   (C5_magnitude_special_values.1 ⟨F.inf, F.num 0⟩).2 (by decide) (by decide)
     (Or.inl rfl)⟩

/-- C7: for each fixed vector type, converting to the array (respectively
tuple) representation and back gives a vector comparing IEEE-equal to the
original whenever all components are finite, and converting an all-finite
array to a vector and back gives the same array componentwise. -/
theorem C7_conversion_roundtrips :
    (∀ a : Vector2, a.x.isFinite = true → a.y.isFinite = true →
      Vector2.beq (Vector2.fromArray a.toArray) a = true ∧
      Vector2.beq (Vector2.fromTuple a.toTuple) a = true) ∧
    (∀ p : F × F, p.1.isFinite = true → p.2.isFinite = true →
      F.beq (Vector2.toArray (Vector2.fromArray p)).1 p.1 = true ∧
      F.beq (Vector2.toArray (Vector2.fromArray p)).2 p.2 = true) ∧
    (∀ a : Vector3, a.x.isFinite = true → a.y.isFinite = true →
        a.z.isFinite = true →
      Vector3.beq (Vector3.fromArray a.toArray) a = true ∧
      Vector3.beq (Vector3.fromTuple a.toTuple) a = true) ∧
    (∀ p : F × F × F, p.1.isFinite = true → p.2.1.isFinite = true →
        p.2.2.isFinite = true →
      F.beq (Vector3.toArray (Vector3.fromArray p)).1 p.1 = true ∧
      F.beq (Vector3.toArray (Vector3.fromArray p)).2.1 p.2.1 = true ∧
      F.beq (Vector3.toArray (Vector3.fromArray p)).2.2 p.2.2 = true) ∧
    (∀ v : Vector4, v.a.isFinite = true → v.b.isFinite = true →
        v.c.isFinite = true → v.d.isFinite = true →
      Vector4.beq (Vector4.fromArray v.toArray) v = true ∧
      Vector4.beq (Vector4.fromTuple v.toTuple) v = true) ∧
    (∀ p : F × F × F × F, p.1.isFinite = true → p.2.1.isFinite = true →
        p.2.2.1.isFinite = true → p.2.2.2.isFinite = true →
      F.beq (Vector4.toArray (Vector4.fromArray p)).1 p.1 = true ∧
      F.beq (Vector4.toArray (Vector4.fromArray p)).2.1 p.2.1 = true ∧
      F.beq (Vector4.toArray (Vector4.fromArray p)).2.2.1 p.2.2.1 = true ∧
      F.beq (Vector4.toArray (Vector4.fromArray p)).2.2.2 p.2.2.2 = true) := by
  refine ⟨fun a hx hy => ?_, fun p h1 h2 => ?_, fun a hx hy hz => ?_,
    fun p h1 h2 h3 => ?_, fun v h1 h2 h3 h4 => ?_, fun p h1 h2 h3 h4 => ?_⟩
  · exact ⟨by simp [Vector2.beq, Vector2.fromArray, Vector2.toArray,
      F.beq_self_of_finite _ hx, F.beq_self_of_finite _ hy],
    by simp [Vector2.beq, Vector2.fromTuple, Vector2.toTuple,
      F.beq_self_of_finite _ hx, F.beq_self_of_finite _ hy]⟩
  · exact ⟨F.beq_self_of_finite _ h1, F.beq_self_of_finite _ h2⟩
  · exact ⟨by simp [Vector3.beq, Vector3.fromArray, Vector3.toArray,
      F.beq_self_of_finite _ hx, F.beq_self_of_finite _ hy,
      F.beq_self_of_finite _ hz],
    by simp [Vector3.beq, Vector3.fromTuple, Vector3.toTuple,
      F.beq_self_of_finite _ hx, F.beq_self_of_finite _ hy,
      F.beq_self_of_finite _ hz]⟩
  · exact ⟨F.beq_self_of_finite _ h1, F.beq_self_of_finite _ h2,
      F.beq_self_of_finite _ h3⟩
  · exact ⟨by simp [Vector4.beq, Vector4.fromArray, Vector4.toArray,
      F.beq_self_of_finite _ h1, F.beq_self_of_finite _ h2,
      F.beq_self_of_finite _ h3, F.beq_self_of_finite _ h4],
    by simp [Vector4.beq, Vector4.fromTuple, Vector4.toTuple,
      F.beq_self_of_finite _ h1, F.beq_self_of_finite _ h2,
      F.beq_self_of_finite _ h3, F.beq_self_of_finite _ h4]⟩
  · exact ⟨F.beq_self_of_finite _ h1, F.beq_self_of_finite _ h2,
      F.beq_self_of_finite _ h3, F.beq_self_of_finite _ h4⟩

/-- C7 witness: the round trips at the concrete finite Vector2 (1, 2). -/
theorem C7_witness :
    Vector2.beq (Vector2.fromArray (Vector2.toArray ⟨F.num 1, F.num 2⟩))
      ⟨F.num 1, F.num 2⟩ = true ∧
    Vector2.beq (Vector2.fromTuple (Vector2.toTuple ⟨F.num 1, F.num 2⟩))
      ⟨F.num 1, F.num 2⟩ = true :=
  C7_conversion_roundtrips.1 ⟨F.num 1, F.num 2⟩ (by decide) (by decide)

/-- C8: indexed access on a DynamicVector succeeds exactly when the index is
below the length: get and set return a value precisely for indices i <
length, and for i >= length they are the modelled panic (none), so under
the precondition i < length the out-of-bounds branch cannot be taken. -/
theorem C8_get_set_in_bounds :
    ∀ (d : DynamicVector) (i : Nat) (v : F),
      ((d.get i).isSome = true ↔ i < d.length) ∧
      ((d.set i v).isSome = true ↔ i < d.length) := by
  intro d i v
  refine ⟨get?_isSome_iff d.data i, ?_⟩
  by_cases h : i < d.data.length
  · simp [DynamicVector.set, DynamicVector.length, h]
  · simp [DynamicVector.set, DynamicVector.length, h]

/-- C9: the DynamicVector constructor produces a vector of exactly the
requested length whose every component reads back as 0. -/
theorem C9_new_zero_filled :
    ∀ n : Nat, (DynamicVector.new n).length = n ∧
      ∀ i : Nat, i < n → (DynamicVector.new n).get i = some (F.num 0) := by
  intro n
  refine ⟨by simp [DynamicVector.new, DynamicVector.length], fun i hi => ?_⟩
  rw [DynamicVector.new, DynamicVector.get, List.get?_eq_getElem?,
    List.getElem?_eq_getElem (by simpa using hi)]
  simp

/-- C9 witness: a fresh DynamicVector of length 2 has length 2 and reads 0
at index 1. -/
theorem C9_witness :
    (DynamicVector.new 2).length = 2 ∧
      (DynamicVector.new 2).get 1 = some (F.num 0) :=
  ⟨(C9_new_zero_filled 2).1, (C9_new_zero_filled 2).2 1 (by decide)⟩

/-- C10: a successful set at index i stores the value at i, leaves every
other index unchanged, and preserves the length. -/
theorem C10_set_frame :
    ∀ (d : DynamicVector) (i j : Nat) (v : F) (e : DynamicVector),
      d.set i v = some e →
      e.length = d.length ∧ e.get i = some v ∧ (j ≠ i → e.get j = d.get j) := by
  intro d i j v e h
  rw [DynamicVector.set] at h
  by_cases hlt : i < d.data.length
  · rw [if_pos hlt] at h
    obtain rfl := (Option.some_inj.mp h).symm
    refine ⟨?_, ?_, fun hji => ?_⟩
    · simp [DynamicVector.length]
    · rw [DynamicVector.get, List.get?_eq_getElem?,
        List.getElem?_set_eq_of_lt _ hlt]
    · rw [DynamicVector.get, DynamicVector.get, List.get?_eq_getElem?,
        List.get?_eq_getElem?, List.getElem?_set_ne (Ne.symm hji)]
  · rw [if_neg hlt] at h
    cases h

/-- C10 witness: setting index 0 of the two-element vector (1, 2) to 5
succeeds, stores 5 at index 0, leaves index 1 unchanged, and preserves the
length. -/
theorem C10_witness :
    (⟨[F.num 5, F.num 2]⟩ : DynamicVector).length =
        (⟨[F.num 1, F.num 2]⟩ : DynamicVector).length ∧
      (⟨[F.num 5, F.num 2]⟩ : DynamicVector).get 0 = some (F.num 5) ∧
      (1 ≠ 0 → (⟨[F.num 5, F.num 2]⟩ : DynamicVector).get 1 =
        (⟨[F.num 1, F.num 2]⟩ : DynamicVector).get 1) :=
  C10_set_frame ⟨[F.num 1, F.num 2]⟩ 0 1 (F.num 5) ⟨[F.num 5, F.num 2]⟩
    (by decide)

/-- The exponent of the least positive subnormal double (the value
2 to the EMIN). -/
def EMIN : ℤ := -1074

/-- One binary-search refinement step for the floor of the base-two
logarithm: widen the lower exponent acc by w when 2^(acc+w) still fits
below n. -/
def blogAux (n acc w : ℕ) : ℕ :=
  if 2 ^ (acc + w) ≤ n then acc + w else acc

/-- Floor of the base-two logarithm of a positive natural number, by a
twelve-step binary search over the exponent; exact for every n below
2^4096, which covers every quantity the rounding algorithms form out of
canonical binary64 representations. -/
def blog (n : ℕ) : ℕ :=
  blogAux n (blogAux n (blogAux n (blogAux n (blogAux n (blogAux n (blogAux n
    (blogAux n (blogAux n (blogAux n (blogAux n (blogAux n 0 2048) 1024) 512)
    256) 128) 64) 32) 16) 8) 4) 2) 1

/-- Round a / 2^d to the nearest integer, ties to even. -/
def rne (a d : ℕ) : ℕ :=
  let q := a / 2 ^ d
  let r := a % 2 ^ d
  if 2 * r < 2 ^ d then q
  else if 2 ^ d < 2 * r then q + 1
  else if q % 2 = 0 then q else q + 1

/-- Bit-accurate model of an IEEE-754 binary64 value: a finite value with
sign, integer significand and binary exponent (value (-1)^s * m * 2^t), an
infinity of either sign, or NaN. -/
inductive F64 : Type where
  | finite (s : Bool) (m : ℕ) (t : ℤ) : F64
  | inf : F64
  | neginf : F64
  | nan : F64
deriving DecidableEq

/-- The canonical representation of zero (positive zero; the negative zero
is identified with it). -/
def zeroF : F64 := F64.finite false 0 EMIN

namespace F64

/-- Package a rounded magnitude q at ulp exponent u into a double: carry
renormalization when rounding produced 2^53, overflow to a signed infinity
past the largest finite exponent, canonical zero when q = 0. -/
def mkFin (s : Bool) (q : ℕ) (u : ℤ) : F64 :=
  if q = 0 then zeroF
  else
    let q2 := if q = 2 ^ 53 then 2 ^ 52 else q
    let u2 := if q = 2 ^ 53 then u + 1 else u
    if 971 < u2 then (if s then neginf else inf) else finite s q2 u2

/-- Round the positive real a * 2^e to the nearest double (ties to even),
attaching sign s: the ulp exponent is 52 below the floor of log2 of the
value, floored at EMIN (gradual underflow). -/
def roundPos (a : ℕ) (e : ℤ) (s : Bool) : F64 :=
  let u : ℤ := max EMIN ((blog a : ℤ) + e - 52)
  let sh : ℤ := e - u
  mkFin s (if 0 ≤ sh then a * 2 ^ sh.toNat else rne a (-sh).toNat) u

/-- Round the signed integer multiple n of 2^e to the nearest double. -/
def roundInt (n : ℤ) (e : ℤ) : F64 :=
  if 0 < n then roundPos n.toNat e false
  else if n < 0 then roundPos (-n).toNat e true
  else zeroF

/-- The signed contribution (-1)^s * m * 2^k of an aligned operand to an
exact sum. -/
def sval (s : Bool) (m : ℕ) (k : ℕ) : ℤ :=
  (cond s (-1) 1) * ((m * 2 ^ k : ℕ) : ℤ)

/-- IEEE-754 binary64 multiplication: NaN propagation, signed infinity
rules (zero times infinity is NaN), and correctly rounded finite products
(the exact product m1 * m2 * 2^(t1+t2) is rounded to nearest, ties to
even, with underflow and overflow). -/
def mul : F64 → F64 → F64
  | nan, _ => nan
  | _, nan => nan
  | inf, inf => inf
  | inf, neginf => neginf
  | neginf, inf => neginf
  | neginf, neginf => inf
  | inf, finite s m _ => if m = 0 then nan else if s then neginf else inf
  | finite s m _, inf => if m = 0 then nan else if s then neginf else inf
  | neginf, finite s m _ => if m = 0 then nan else if s then inf else neginf
  | finite s m _, neginf => if m = 0 then nan else if s then inf else neginf
  | finite s1 m1 t1, finite s2 m2 t2 =>
      if m1 * m2 = 0 then zeroF
      else roundPos (m1 * m2) (t1 + t2) (xor s1 s2)

/-- IEEE-754 binary64 addition: special-value rules, and the exact signed
sum of the two finite operands (aligned to the smaller exponent) rounded
to nearest, ties to even.  An exact zero sum is the positive zero, as in
round-to-nearest. -/
def add : F64 → F64 → F64
  | nan, _ => nan
  | _, nan => nan
  | inf, neginf => nan
  | neginf, inf => nan
  | inf, _ => inf
  | _, inf => inf
  | neginf, _ => neginf
  | _, neginf => neginf
  | finite s1 m1 t1, finite s2 m2 t2 =>
      roundInt
        (sval s1 m1 (t1 - min t1 t2).toNat + sval s2 m2 (t2 - min t1 t2).toNat)
        (min t1 t2)

/-- IEEE-754 binary64 subtraction, defined directly on the exact signed
difference; it agrees with adding the negated operand, as IEEE-754
prescribes. -/
def sub : F64 → F64 → F64
  | nan, _ => nan
  | _, nan => nan
  | inf, inf => nan
  | neginf, neginf => nan
  | inf, _ => inf
  | neginf, _ => neginf
  | _, inf => neginf
  | _, neginf => inf
  | finite s1 m1 t1, finite s2 m2 t2 =>
      roundInt
        (sval s1 m1 (t1 - min t1 t2).toNat - sval s2 m2 (t2 - min t1 t2).toNat)
        (min t1 t2)

/-- IEEE-754 binary64 negation (the negative zero is identified with
zero in this model). -/
def neg : F64 → F64
  | finite s m t => if m = 0 then zeroF else finite (!s) m t
  | inf => neginf
  | neginf => inf
  | nan => nan

/-- Fuel-driven Newton iteration for the integer square root, with a
strictly decreasing guess. -/
def isqrtAux : ℕ → ℕ → ℕ → ℕ
  | 0, _, g => g
  | fuel + 1, n, g =>
      let g2 := (g + n / g) / 2
      if g2 < g then isqrtAux fuel n g2 else g

/-- Integer square root by Newton iteration from the power-of-two upper
bound 2^(blog n / 2 + 1). -/
def isqrt (n : ℕ) : ℕ :=
  if n ≤ 1 then n else isqrtAux n n (2 ^ (blog n / 2 + 1))

/-- Square root of the positive value m * 2^t: the integer square root of
the value scaled to the result ulp, rounded to nearest (a tie is
impossible, since no half-integer is the square root of an integer). -/
def sqrtPos (m : ℕ) (t : ℤ) : F64 :=
  let u : ℤ := max EMIN (((blog m : ℤ) + t).ediv 2 - 52)
  let w : ℤ := t - 2 * u
  let n := m * 2 ^ w.toNat
  let q0 := isqrt n
  mkFin false (if n ≤ q0 * q0 + q0 then q0 else q0 + 1) u

/-- IEEE-754 binary64 square root: NaN on NaN and on negative values
(including negative infinity), +inf on +inf, exact zero on zero. -/
def sqrt : F64 → F64
  | nan => nan
  | neginf => nan
  | inf => inf
  | finite s m t => if m = 0 then zeroF else if s then nan else sqrtPos m t

/-- Correctly rounded positive quotient (m1 * 2^t1) / (m2 * 2^t2) with
m1, m2 nonzero: the exact quotient is compared against the rounding
boundaries of the result ulp (ties to even). -/
def divPos (m1 : ℕ) (t1 : ℤ) (m2 : ℕ) (t2 : ℤ) (s : Bool) : F64 :=
  let l1 := blog m1
  let l2 := blog m2
  let pq : ℤ :=
    if m2 * 2 ^ l1 ≤ m1 * 2 ^ l2 then (l1 : ℤ) - l2 else (l1 : ℤ) - l2 - 1
  let u : ℤ := max EMIN (pq + t1 - t2 - 52)
  let w : ℤ := t1 - t2 - u
  let qA : ℕ := if 0 ≤ w then m1 * 2 ^ w.toNat else m1
  let qB : ℕ := if 0 ≤ w then m2 else m2 * 2 ^ (-w).toNat
  let q := qA / qB
  let r := qA % qB
  mkFin s
    (if 2 * r < qB then q
     else if qB < 2 * r then q + 1
     else if q % 2 = 0 then q else q + 1) u

/-- IEEE-754 binary64 division: 0/0 and inf/inf are NaN, finite/0 is a
signed infinity, finite/inf is zero, and finite nonzero quotients are
correctly rounded. -/
def div : F64 → F64 → F64
  | nan, _ => nan
  | _, nan => nan
  | inf, inf => nan
  | inf, neginf => nan
  | neginf, inf => nan
  | neginf, neginf => nan
  | inf, finite s _ _ => if s then neginf else inf
  | neginf, finite s _ _ => if s then inf else neginf
  | finite _ _ _, inf => zeroF
  | finite _ _ _, neginf => zeroF
  | finite s1 m1 t1, finite s2 m2 t2 =>
      if m2 = 0 then
        (if m1 = 0 then nan else if xor s1 s2 then neginf else inf)
      else if m1 = 0 then zeroF
      else divPos m1 t1 m2 t2 (xor s1 s2)

/-- IEEE equality on canonical representations: NaN unequal to everything,
zeros equal regardless of stored sign or exponent, otherwise componentwise. -/
def beq : F64 → F64 → Bool
  | finite s1 m1 t1, finite s2 m2 t2 =>
      (decide (m1 = 0) && decide (m2 = 0)) ||
        (decide (s1 = s2) && decide (m1 = m2) && decide (t1 = t2))
  | inf, inf => true
  | neginf, neginf => true
  | _, _ => false

/-- Magnitude comparison of two finite positive values. -/
def magLe (m1 : ℕ) (t1 : ℤ) (m2 : ℕ) (t2 : ℤ) : Bool :=
  decide (m1 * 2 ^ (t1 - min t1 t2).toNat ≤ m2 * 2 ^ (t2 - min t1 t2).toNat)

/-- IEEE less-or-equal on canonical representations: false on NaN,
sign/magnitude comparison on finite values, zeros equal. -/
def le : F64 → F64 → Bool
  | nan, _ => false
  | _, nan => false
  | neginf, _ => true
  | _, inf => true
  | inf, _ => false
  | _, neginf => false
  | finite s1 m1 t1, finite s2 m2 t2 =>
      if m1 = 0 then (decide (m2 = 0) || !s2)
      else if m2 = 0 then s1
      else if s1 then (if s2 then magLe m2 t2 m1 t1 else true)
      else (if s2 then false else magLe m1 t1 m2 t2)

/-- Whether the double is finite. -/
def isFinite : F64 → Bool
  | finite _ _ _ => true
  | _ => false

/-- Whether the double is a zero. -/
def isZero : F64 → Bool
  | finite _ m _ => decide (m = 0)
  | _ => false

/-- Whether the double is nonnegative: a nonnegatively signed finite value
(all canonical zeros are) or positive infinity. -/
def isNonneg : F64 → Bool
  | finite s _ _ => !s
  | inf => true
  | _ => false

/-- The exact rational value of a finite double (0 on the special
values; only ever used on finite arguments). -/
def val : F64 → ℚ
  | finite s m t => (cond s (-1) 1 : ℚ) * m * (2 : ℚ) ^ t
  | _ => 0

end F64

theorem blogAux_spec (n acc w : ℕ) (h1 : 2 ^ acc ≤ n)
    (h2 : n < 2 ^ (acc + 2 * w)) :
    2 ^ blogAux n acc w ≤ n ∧ n < 2 ^ (blogAux n acc w + w) := by
  rw [blogAux]
  by_cases h : 2 ^ (acc + w) ≤ n
  · rw [if_pos h]
    refine ⟨h, ?_⟩
    have e : acc + w + w = acc + 2 * w := by omega
    rw [e]
    exact h2
  · rw [if_neg h]
    exact ⟨h1, Nat.lt_of_not_le h⟩

theorem blog_spec (n : ℕ) (h1 : 1 ≤ n) (h2 : n < 2 ^ 4096) :
    2 ^ blog n ≤ n ∧ n < 2 ^ (blog n + 1) := by
  rw [blog]
  have s1 := blogAux_spec n 0 2048 (by simpa using h1) (by simpa using h2)
  have s2 := blogAux_spec n _ 1024 s1.1 (by simpa using s1.2)
  have s3 := blogAux_spec n _ 512 s2.1 (by simpa using s2.2)
  have s4 := blogAux_spec n _ 256 s3.1 (by simpa using s3.2)
  have s5 := blogAux_spec n _ 128 s4.1 (by simpa using s4.2)
  have s6 := blogAux_spec n _ 64 s5.1 (by simpa using s5.2)
  have s7 := blogAux_spec n _ 32 s6.1 (by simpa using s6.2)
  have s8 := blogAux_spec n _ 16 s7.1 (by simpa using s7.2)
  have s9 := blogAux_spec n _ 8 s8.1 (by simpa using s8.2)
  have s10 := blogAux_spec n _ 4 s9.1 (by simpa using s9.2)
  have s11 := blogAux_spec n _ 2 s10.1 (by simpa using s10.2)
  have s12 := blogAux_spec n _ 1 s11.1 (by simpa using s11.2)
  exact s12

theorem blog_unique (n c : ℕ) (hn : n < 2 ^ 4096) (h1 : 2 ^ c ≤ n)
    (h2 : n < 2 ^ (c + 1)) : blog n = c := by
  have hn1 : 1 ≤ n := le_trans (Nat.two_pow_pos c) h1
  obtain ⟨a1, a2⟩ := blog_spec n hn1 hn
  rcases Nat.lt_trichotomy (blog n) c with h | h | h
  · have hcon : n < 2 ^ c :=
      lt_of_lt_of_le a2 (Nat.pow_le_pow_right (by norm_num) (by omega))
    exact absurd h1 (Nat.not_le_of_lt hcon)
  · exact h
  · have hcon : n < 2 ^ blog n :=
      lt_of_lt_of_le h2 (Nat.pow_le_pow_right (by norm_num) (by omega))
    exact absurd a1 (Nat.not_le_of_lt hcon)

theorem blog_mul_pow (a k : ℕ) (ha : 1 ≤ a) (h : a * 2 ^ k < 2 ^ 4096) :
    blog (a * 2 ^ k) = blog a + k := by
  have ha2 : a < 2 ^ 4096 :=
    lt_of_le_of_lt (Nat.le_mul_of_pos_right a (Nat.two_pow_pos k)) h
  obtain ⟨b1, b2⟩ := blog_spec a ha ha2
  refine blog_unique _ _ h ?_ ?_
  · calc 2 ^ (blog a + k) = 2 ^ blog a * 2 ^ k := by rw [pow_add]
      _ ≤ a * 2 ^ k := Nat.mul_le_mul_right _ b1
  · calc a * 2 ^ k < 2 ^ (blog a + 1) * 2 ^ k :=
        Nat.mul_lt_mul_of_lt_of_le b2 le_rfl (Nat.two_pow_pos k)
      _ = 2 ^ (blog a + k + 1) := by
        rw [← pow_add]
        congr 1
        omega

theorem rne_zero (a : ℕ) : rne a 0 = a := by
  simp [rne, Nat.mod_one]

theorem rne_shift (a d k : ℕ) : rne (a * 2 ^ k) (d + k) = rne a d := by
  have hpos : 0 < 2 ^ k := Nat.two_pow_pos k
  have e1 : a * 2 ^ k / 2 ^ (d + k) = a / 2 ^ d := by
    rw [pow_add, mul_comm (2 ^ d) (2 ^ k), ← Nat.div_div_eq_div_mul,
      Nat.mul_div_cancel _ hpos]
  have e2 : a * 2 ^ k % 2 ^ (d + k) = a % 2 ^ d * 2 ^ k := by
    rw [pow_add, Nat.mul_mod_mul_right]
  rw [rne, rne, e1, e2]
  have c1 : (2 * (a % 2 ^ d * 2 ^ k) < 2 ^ (d + k)) = (2 * (a % 2 ^ d) < 2 ^ d) := by
    rw [pow_add, ← mul_assoc]
    exact propext (Nat.mul_lt_mul_right hpos)
  have c2 : (2 ^ (d + k) < 2 * (a % 2 ^ d * 2 ^ k)) = (2 ^ d < 2 * (a % 2 ^ d)) := by
    rw [pow_add, ← mul_assoc]
    exact propext (Nat.mul_lt_mul_right hpos)
  simp only [c1, c2]

theorem rne_mul_pow (y d : ℕ) : rne (y * 2 ^ d) d = y := by
  have := rne_shift y 0 d
  rw [Nat.zero_add] at this
  rw [this, rne_zero]

theorem roundPos_shift (a k : ℕ) (e : ℤ) (s : Bool) (ha : 1 ≤ a)
    (hbound : a * 2 ^ k < 2 ^ 4096) :
    F64.roundPos (a * 2 ^ k) (e - k) s = F64.roundPos a e s := by
  rw [F64.roundPos, F64.roundPos, blog_mul_pow a k ha hbound]
  have hu : max EMIN ((↑(blog a + k) : ℤ) + (e - k) - 52) =
      max EMIN ((blog a : ℤ) + e - 52) := by
    omega
  rw [hu]
  congr 1
  by_cases hc1 : 0 ≤ e - ↑k - max EMIN ((blog a : ℤ) + e - 52)
  · have hc2 : 0 ≤ e - max EMIN ((blog a : ℤ) + e - 52) := by omega
    rw [if_pos hc1, if_pos hc2, mul_assoc, ← pow_add]
    congr 2
    omega
  · by_cases hc2 : 0 ≤ e - max EMIN ((blog a : ℤ) + e - 52)
    · rw [if_neg hc1, if_pos hc2]
      have hsplit : a * 2 ^ k =
          a * 2 ^ (e - max EMIN ((blog a : ℤ) + e - 52)).toNat *
            2 ^ (-(e - ↑k - max EMIN ((blog a : ℤ) + e - 52))).toNat := by
        rw [mul_assoc, ← pow_add]
        congr 2
        omega
      rw [hsplit, rne_mul_pow]
    · rw [if_neg hc1, if_neg hc2]
      have hd : (-(e - ↑k - max EMIN ((blog a : ℤ) + e - 52))).toNat =
          (-(e - max EMIN ((blog a : ℤ) + e - 52))).toNat + k := by
        omega
      rw [hd, rne_shift]

theorem roundPos_val_eq (a1 a2 : ℕ) (e1 e2 : ℤ) (s : Bool)
    (h1 : 1 ≤ a1) (h2 : 1 ≤ a2)
    (hb1 : a1 < 2 ^ 4096) (hb2 : a2 < 2 ^ 4096)
    (hv : (a1 : ℚ) * (2 : ℚ) ^ e1 = (a2 : ℚ) * (2 : ℚ) ^ e2) :
    F64.roundPos a1 e1 s = F64.roundPos a2 e2 s := by
  have h2q : ((2 : ℚ)) ≠ 0 := by norm_num
  rcases le_total e2 e1 with hle | hle
  · have hk : a2 = a1 * 2 ^ (e1 - e2).toNat := by
      have hz : ((2 : ℚ)) ^ e2 ≠ 0 := zpow_ne_zero _ h2q
      have hsum : e1 = e2 + ((e1 - e2).toNat : ℤ) := by omega
      have : (a1 : ℚ) * ((2 : ℚ) ^ e2 * (2 : ℚ) ^ ((e1 - e2).toNat : ℤ)) =
          (a2 : ℚ) * (2 : ℚ) ^ e2 := by
        rw [← zpow_add₀ h2q]
        rw [← hsum]
        exact hv
      have hq : (a1 : ℚ) * (2 : ℚ) ^ ((e1 - e2).toNat : ℤ) = a2 := by
        refine mul_right_cancel₀ hz ?_
        calc (a1 : ℚ) * (2 : ℚ) ^ ((e1 - e2).toNat : ℤ) * (2 : ℚ) ^ e2 =
            (a1 : ℚ) * ((2 : ℚ) ^ e2 * (2 : ℚ) ^ ((e1 - e2).toNat : ℤ)) := by
              ring
          _ = (a2 : ℚ) * (2 : ℚ) ^ e2 := this
      rw [zpow_natCast] at hq
      exact_mod_cast hq.symm
    have he : e2 = e1 - ((e1 - e2).toNat : ℤ) := by omega
    have hb : a1 * 2 ^ (e1 - e2).toNat < 2 ^ 4096 := by
      rw [← hk]
      exact hb2
    have hs := roundPos_shift a1 (e1 - e2).toNat e1 s h1 hb
    rw [← hk, ← he] at hs
    exact hs.symm
  · have hk : a1 = a2 * 2 ^ (e2 - e1).toNat := by
      have hz : ((2 : ℚ)) ^ e1 ≠ 0 := zpow_ne_zero _ h2q
      have hsum : e2 = e1 + ((e2 - e1).toNat : ℤ) := by omega
      have : (a2 : ℚ) * ((2 : ℚ) ^ e1 * (2 : ℚ) ^ ((e2 - e1).toNat : ℤ)) =
          (a1 : ℚ) * (2 : ℚ) ^ e1 := by
        rw [← zpow_add₀ h2q]
        rw [← hsum]
        exact hv.symm
      have hq : (a2 : ℚ) * (2 : ℚ) ^ ((e2 - e1).toNat : ℤ) = a1 := by
        refine mul_right_cancel₀ hz ?_
        calc (a2 : ℚ) * (2 : ℚ) ^ ((e2 - e1).toNat : ℤ) * (2 : ℚ) ^ e1 =
            (a2 : ℚ) * ((2 : ℚ) ^ e1 * (2 : ℚ) ^ ((e2 - e1).toNat : ℤ)) := by
              ring
          _ = (a1 : ℚ) * (2 : ℚ) ^ e1 := this
      rw [zpow_natCast] at hq
      exact_mod_cast hq.symm
    have he : e1 = e2 - ((e2 - e1).toNat : ℤ) := by omega
    have hb : a2 * 2 ^ (e2 - e1).toNat < 2 ^ 4096 := by
      rw [← hk]
      exact hb1
    have hs := roundPos_shift a2 (e2 - e1).toNat e2 s h2 hb
    rw [← hk, ← he] at hs
    exact hs

namespace F64

theorem mkFin_ne_nan (s : Bool) (q : ℕ) (u : ℤ) : mkFin s q u ≠ nan := by
  rw [mkFin]
  by_cases h0 : q = 0
  · rw [if_pos h0]
    simp [zeroF]
  · rw [if_neg h0]
    dsimp only
    by_cases h3 : 971 < (if q = 2 ^ 53 then u + 1 else u)
    · rw [if_pos h3]
      cases s <;> simp
    · rw [if_neg h3]
      simp

theorem mkFin_false_nonneg (q : ℕ) (u : ℤ) :
    (mkFin false q u).isNonneg = true := by
  rw [mkFin]
  by_cases h0 : q = 0
  · rw [if_pos h0]
    rfl
  · rw [if_neg h0]
    dsimp only
    by_cases h3 : 971 < (if q = 2 ^ 53 then u + 1 else u)
    · rw [if_pos h3]
      simp [isNonneg]
    · rw [if_neg h3]
      rfl

theorem neg_mkFin (s : Bool) (q : ℕ) (u : ℤ) :
    neg (mkFin s q u) = mkFin (!s) q u := by
  by_cases h0 : q = 0
  · rw [mkFin, mkFin, if_pos h0, if_pos h0]
    rfl
  · rw [mkFin, mkFin, if_neg h0, if_neg h0]
    dsimp only
    by_cases h3 : 971 < (if q = 2 ^ 53 then u + 1 else u)
    · rw [if_pos h3, if_pos h3]
      cases s <;> rfl
    · rw [if_neg h3, if_neg h3]
      rw [neg]
      rw [if_neg]
      split
      · norm_num
      · omega

theorem isNonneg_finite (s : Bool) (m : ℕ) (t : ℤ) :
    (finite s m t).isNonneg = true ↔ s = false := by
  cases s <;> simp [isNonneg]

theorem roundPos_ne_nan (a : ℕ) (e : ℤ) (s : Bool) : roundPos a e s ≠ nan :=
  mkFin_ne_nan _ _ _

theorem roundPos_false_nonneg (a : ℕ) (e : ℤ) :
    (roundPos a e false).isNonneg = true :=
  mkFin_false_nonneg _ _

theorem neg_roundPos (a : ℕ) (e : ℤ) (s : Bool) :
    neg (roundPos a e s) = roundPos a e (!s) :=
  neg_mkFin _ _ _

theorem roundInt_ne_nan (n e : ℤ) : roundInt n e ≠ nan := by
  rw [roundInt]
  split
  · exact roundPos_ne_nan _ _ _
  · split
    · exact roundPos_ne_nan _ _ _
    · simp [zeroF]

theorem roundInt_nonneg (n e : ℤ) (h : 0 ≤ n) :
    (roundInt n e).isNonneg = true := by
  rw [roundInt]
  split
  · exact roundPos_false_nonneg _ _
  · split
    · omega
    · rfl

theorem neg_roundInt (n e : ℤ) : neg (roundInt n e) = roundInt (-n) e := by
  rcases lt_trichotomy n 0 with h | h | h
  · rw [roundInt, if_neg (by omega), if_pos h, roundInt, if_pos (by omega)]
    simpa using neg_roundPos (-n).toNat e true
  · subst h
    rfl
  · rw [roundInt, if_pos h, roundInt, if_neg (by omega), if_pos (by omega),
      neg_neg]
    simpa using neg_roundPos n.toNat e false

theorem sq_good (x : F64) (hx : x ≠ nan) :
    (mul x x).isNonneg = true ∧ mul x x ≠ nan := by
  cases x with
  | finite s m t =>
    simp only [mul]
    by_cases h : m * m = 0
    · rw [if_pos h]
      exact ⟨rfl, by simp [zeroF]⟩
    · rw [if_neg h, Bool.xor_self]
      exact ⟨roundPos_false_nonneg _ _, roundPos_ne_nan _ _ _⟩
  | inf => exact ⟨rfl, by decide⟩
  | neginf => exact ⟨rfl, by decide⟩
  | nan => exact absurd rfl hx

theorem sq_zeroF (x : F64) (hx : x.isZero = true) : mul x x = zeroF := by
  cases x with
  | finite s m t =>
    have hm : m = 0 := by simpa [isZero] using hx
    subst hm
    simp [mul]
  | inf => simp [isZero] at hx
  | neginf => simp [isZero] at hx
  | nan => simp [isZero] at hx

theorem add_good (x y : F64) (hx : x.isNonneg = true) (hxn : x ≠ nan)
    (hy : y.isNonneg = true) (hyn : y ≠ nan) :
    (add x y).isNonneg = true ∧ add x y ≠ nan := by
  cases x with
  | nan => exact absurd rfl hxn
  | neginf => simp [isNonneg] at hx
  | inf =>
    cases y with
    | nan => exact absurd rfl hyn
    | neginf => simp [isNonneg] at hy
    | inf => exact ⟨rfl, by decide⟩
    | finite s2 m2 t2 => exact ⟨rfl, by simp [add]⟩
  | finite s1 m1 t1 =>
    cases y with
    | nan => exact absurd rfl hyn
    | neginf => simp [isNonneg] at hy
    | inf => exact ⟨rfl, by simp [add]⟩
    | finite s2 m2 t2 =>
      have hs1 : s1 = false := (isNonneg_finite _ _ _).mp hx
      have hs2 : s2 = false := (isNonneg_finite _ _ _).mp hy
      subst hs1
      subst hs2
      simp only [add]
      refine ⟨roundInt_nonneg _ _ ?_, roundInt_ne_nan _ _⟩
      simp only [sval, Bool.cond_false, one_mul]
      positivity

theorem add_zeroF : add zeroF zeroF = zeroF := by
  decide

theorem sqrt_good (x : F64) (hx : x.isNonneg = true) (hxn : x ≠ nan) :
    (sqrt x).isNonneg = true ∧ sqrt x ≠ nan := by
  cases x with
  | nan => exact absurd rfl hxn
  | neginf => simp [isNonneg] at hx
  | inf => exact ⟨rfl, by decide⟩
  | finite s m t =>
    have hs : s = false := (isNonneg_finite _ _ _).mp hx
    subst hs
    simp only [sqrt]
    by_cases h : m = 0
    · rw [if_pos h]
      exact ⟨rfl, by simp [zeroF]⟩
    · rw [if_neg h, if_neg (by simp)]
      exact ⟨mkFin_false_nonneg _ _, mkFin_ne_nan _ _ _⟩

theorem sqrt_zeroF : sqrt zeroF = zeroF := rfl

theorem le_zeroF_of_nonneg (x : F64) (hx : x.isNonneg = true) (hxn : x ≠ nan) :
    le zeroF x = true := by
  cases x with
  | nan => exact absurd rfl hxn
  | neginf => simp [isNonneg] at hx
  | inf => rfl
  | finite s m t =>
    have hs : s = false := (isNonneg_finite _ _ _).mp hx
    subst hs
    simp [le, zeroF]

theorem beq_zeroF_self : beq zeroF zeroF = true := by
  decide

theorem beq_self_ne_nan (x : F64) (hx : x ≠ nan) : beq x x = true := by
  cases x with
  | finite s m t => simp [beq]
  | inf => rfl
  | neginf => rfl
  | nan => exact absurd rfl hx

theorem div_zero_zeroF (x : F64) (hx : x.isZero = true) : div x zeroF = nan := by
  cases x with
  | finite s m t =>
    have hm : m = 0 := by simpa [isZero] using hx
    subst hm
    simp [div, zeroF]
  | inf => simp [isZero] at hx
  | neginf => simp [isZero] at hx
  | nan => simp [isZero] at hx

theorem mul_comm64 (x y : F64) : mul x y = mul y x := by
  cases x with
  | finite s1 m1 t1 =>
    cases y with
    | finite s2 m2 t2 =>
      simp only [mul]
      rw [Nat.mul_comm m1 m2, Int.add_comm t1 t2, Bool.xor_comm s1 s2]
    | inf => rfl
    | neginf => rfl
    | nan => rfl
  | inf => cases y <;> rfl
  | neginf => cases y <;> rfl
  | nan => cases y <;> rfl

theorem sub_self_finite (s : Bool) (m : ℕ) (t : ℤ) :
    sub (finite s m t) (finite s m t) = zeroF := by
  simp only [sub]
  rw [sub_self]
  rfl

theorem sub_antisym_finite (s1 : Bool) (m1 : ℕ) (t1 : ℤ) (s2 : Bool)
    (m2 : ℕ) (t2 : ℤ) :
    sub (finite s1 m1 t1) (finite s2 m2 t2) =
      neg (sub (finite s2 m2 t2) (finite s1 m1 t1)) := by
  simp only [sub]
  rw [neg_roundInt, neg_sub, min_comm t2 t1]

theorem sub_finite_ne_nan (s1 : Bool) (m1 : ℕ) (t1 : ℤ) (s2 : Bool)
    (m2 : ℕ) (t2 : ℤ) :
    sub (finite s1 m1 t1) (finite s2 m2 t2) ≠ nan :=
  roundInt_ne_nan _ _

/-- Whether the value is finite with a significand below 2^53, as the
significand of every binary64 value is. -/
def isF53 : F64 → Bool
  | finite _ m _ => decide (m < 2 ^ 53)
  | _ => false

theorem isF53_elim (x : F64) (h : x.isF53 = true) :
    ∃ s m t, x = finite s m t ∧ m < 2 ^ 53 := by
  cases x with
  | finite s m t => exact ⟨s, m, t, rfl, by simpa [isF53] using h⟩
  | inf => simp [isF53] at h
  | neginf => simp [isF53] at h
  | nan => simp [isF53] at h

theorem isFinite_elim (x : F64) (h : x.isFinite = true) :
    ∃ s m t, x = finite s m t := by
  cases x with
  | finite s m t => exact ⟨s, m, t, rfl⟩
  | inf => simp [isFinite] at h
  | neginf => simp [isFinite] at h
  | nan => simp [isFinite] at h

theorem val_mul_expand (s1 : Bool) (m1 : ℕ) (t1 : ℤ) (s2 : Bool) (m2 : ℕ)
    (t2 : ℤ) :
    val (finite s1 m1 t1) * val (finite s2 m2 t2) =
      (cond (xor s1 s2) (-1) 1 : ℚ) * ((m1 * m2 : ℕ) : ℚ) *
        (2 : ℚ) ^ (t1 + t2) := by
  rw [val, val, zpow_add₀ (by norm_num : (2 : ℚ) ≠ 0)]
  push_cast
  cases s1 <;> cases s2 <;> simp <;> ring

theorem signed_eq (s1 s2 : Bool) (A B : ℚ) (hA : 0 < A) (hB : 0 < B)
    (h : (cond s1 (-1) 1 : ℚ) * A = (cond s2 (-1) 1) * B) : s1 = s2 ∧ A = B := by
  cases s1 <;> cases s2 <;> simp at h ⊢ <;> nlinarith

theorem mul_val_eq (x1 y1 x2 y2 : F64)
    (h1 : x1.isF53 = true) (h2 : y1.isF53 = true)
    (h3 : x2.isF53 = true) (h4 : y2.isF53 = true)
    (hv : val x1 * val y1 = val x2 * val y2) :
    mul x1 y1 = mul x2 y2 := by
  obtain ⟨a₁, n₁, e₁, rfl, hn₁⟩ := isF53_elim x1 h1
  obtain ⟨b₁, p₁, f₁, rfl, hp₁⟩ := isF53_elim y1 h2
  obtain ⟨a₂, n₂, e₂, rfl, hn₂⟩ := isF53_elim x2 h3
  obtain ⟨b₂, p₂, f₂, rfl, hp₂⟩ := isF53_elim y2 h4
  rw [val_mul_expand, val_mul_expand] at hv
  simp only [mul]
  by_cases hz1 : n₁ * p₁ = 0
  · rw [if_pos hz1]
    have hz2 : n₂ * p₂ = 0 := by
      by_contra hnz
      have hne : (cond (xor a₂ b₂) (-1) 1 : ℚ) * ((n₂ * p₂ : ℕ) : ℚ) *
          (2 : ℚ) ^ (e₂ + f₂) ≠ 0 := by
        have c1 : (cond (xor a₂ b₂) (-1) 1 : ℚ) ≠ 0 := by
          cases xor a₂ b₂ <;> norm_num
        have c2 : ((n₂ * p₂ : ℕ) : ℚ) ≠ 0 := Nat.cast_ne_zero.mpr hnz
        have c3 : (2 : ℚ) ^ (e₂ + f₂) ≠ 0 := zpow_ne_zero _ (by norm_num)
        exact mul_ne_zero (mul_ne_zero c1 c2) c3
      rw [hz1] at hv
      simp only [Nat.cast_zero, mul_zero, zero_mul] at hv
      exact hne hv.symm
    rw [if_pos hz2]
  · have hz2 : ¬ n₂ * p₂ = 0 := by
      intro h0
      have hne : (cond (xor a₁ b₁) (-1) 1 : ℚ) * ((n₁ * p₁ : ℕ) : ℚ) *
          (2 : ℚ) ^ (e₁ + f₁) ≠ 0 := by
        have c1 : (cond (xor a₁ b₁) (-1) 1 : ℚ) ≠ 0 := by
          cases xor a₁ b₁ <;> norm_num
        have c2 : ((n₁ * p₁ : ℕ) : ℚ) ≠ 0 := Nat.cast_ne_zero.mpr hz1
        have c3 : (2 : ℚ) ^ (e₁ + f₁) ≠ 0 := zpow_ne_zero _ (by norm_num)
        exact mul_ne_zero (mul_ne_zero c1 c2) c3
      rw [h0] at hv
      simp only [Nat.cast_zero, mul_zero, zero_mul] at hv
      exact hne hv
    rw [if_neg hz1, if_neg hz2]
    have hA : (0 : ℚ) < ((n₁ * p₁ : ℕ) : ℚ) * (2 : ℚ) ^ (e₁ + f₁) :=
      mul_pos (by exact_mod_cast Nat.pos_of_ne_zero hz1)
        (zpow_pos (by norm_num) _)
    have hB : (0 : ℚ) < ((n₂ * p₂ : ℕ) : ℚ) * (2 : ℚ) ^ (e₂ + f₂) :=
      mul_pos (by exact_mod_cast Nat.pos_of_ne_zero hz2)
        (zpow_pos (by norm_num) _)
    rw [mul_assoc, mul_assoc] at hv
    obtain ⟨hs, hmag⟩ := signed_eq _ _ _ _ hA hB hv
    rw [hs]
    refine roundPos_val_eq _ _ _ _ _ (Nat.pos_of_ne_zero hz1)
      (Nat.pos_of_ne_zero hz2) ?_ ?_ hmag
    · calc n₁ * p₁ < 2 ^ 53 * 2 ^ 53 :=
          Nat.mul_lt_mul_of_lt_of_le hn₁ (le_of_lt hp₁) (Nat.two_pow_pos 53)
        _ < 2 ^ 4096 := by norm_num
    · calc n₂ * p₂ < 2 ^ 53 * 2 ^ 53 :=
          Nat.mul_lt_mul_of_lt_of_le hn₂ (le_of_lt hp₂) (Nat.two_pow_pos 53)
        _ < 2 ^ 4096 := by norm_num

end F64

namespace B64

/-- Bit-accurate model of the Rust struct Vector2 of src/vector2.rs. -/
structure Vector2 : Type where
  x : F64
  y : F64
deriving DecidableEq

/-- Vector2::magnitude at the bit-accurate level:
(self.x * self.x + self.y * self.y).sqrt() with every operation rounded. -/
def Vector2.magnitude (a : Vector2) : F64 :=
  ((a.x.mul a.x).add (a.y.mul a.y)).sqrt

/-- Vector2::normalize at the bit-accurate level: each component divided by
the magnitude (computed once). -/
def Vector2.normalize (a : Vector2) : Vector2 :=
  ⟨a.x.div a.magnitude, a.y.div a.magnitude⟩

/-- Bit-accurate model of the Rust struct Vector3 of src/vector3.rs. -/
structure Vector3 : Type where
  x : F64
  y : F64
  z : F64
deriving DecidableEq

/-- Vector3::cross at the bit-accurate level: the six component products
and three differences are each correctly rounded binary64 operations, as
in the Rust source. -/
def Vector3.cross (a other : Vector3) : Vector3 :=
  ⟨(a.y.mul other.z).sub (a.z.mul other.y),
   (a.z.mul other.x).sub (a.x.mul other.z),
   (a.x.mul other.y).sub (a.y.mul other.x)⟩

/-- Vector3::magnitude at the bit-accurate level. -/
def Vector3.magnitude (a : Vector3) : F64 :=
  (((a.x.mul a.x).add (a.y.mul a.y)).add (a.z.mul a.z)).sqrt

/-- Vector3::normalize at the bit-accurate level. -/
def Vector3.normalize (a : Vector3) : Vector3 :=
  ⟨a.x.div a.magnitude, a.y.div a.magnitude, a.z.div a.magnitude⟩

/-- Componentwise negation of a bit-accurate Vector3 (the mathematical
negation used by the specification sentence cross(a,b) == -cross(b,a)). -/
def Vector3.neg (a : Vector3) : Vector3 :=
  ⟨a.x.neg, a.y.neg, a.z.neg⟩

/-- The derived PartialEq of Vector3 at the bit-accurate level:
componentwise IEEE equality. -/
def Vector3.beq (a b : Vector3) : Bool :=
  F64.beq a.x b.x && F64.beq a.y b.y && F64.beq a.z b.z

/-- Bit-accurate model of the Rust struct Vector4 of src/vector4.rs. -/
structure Vector4 : Type where
  a : F64
  b : F64
  c : F64
  d : F64
deriving DecidableEq

/-- Vector4::magnitude at the bit-accurate level. -/
def Vector4.magnitude (v : Vector4) : F64 :=
  ((((v.a.mul v.a).add (v.b.mul v.b)).add (v.c.mul v.c)).add
    (v.d.mul v.d)).sqrt

/-- Vector4::normalize at the bit-accurate level. -/
def Vector4.normalize (v : Vector4) : Vector4 :=
  ⟨v.a.div v.magnitude, v.b.div v.magnitude, v.c.div v.magnitude,
   v.d.div v.magnitude⟩

/-- Bit-accurate model of the Rust struct DynamicVector of
src/dynamic_vector.rs. -/
structure DynamicVector : Type where
  data : List F64
deriving DecidableEq

/-- The length of the underlying buffer. -/
def DynamicVector.length (d : DynamicVector) : Nat :=
  d.data.length

/-- DynamicVector::magnitude at the bit-accurate level: the squares are
rounded, summed left to right from 0.0 with rounded additions, and the
square root is taken. -/
def DynamicVector.magnitude (d : DynamicVector) : F64 :=
  ((d.data.map fun a => F64.mul a a).foldl F64.add zeroF).sqrt

/-- DynamicVector::normalize at the bit-accurate level. -/
def DynamicVector.normalize (d : DynamicVector) : DynamicVector :=
  ⟨d.data.map fun a => F64.div a d.magnitude⟩

theorem foldl_add_good (l : List F64) (acc : F64)
    (h1 : acc.isNonneg = true) (h2 : acc ≠ F64.nan)
    (hl : ∀ z ∈ l, z.isNonneg = true ∧ z ≠ F64.nan) :
    (l.foldl F64.add acc).isNonneg = true ∧ l.foldl F64.add acc ≠ F64.nan := by
  induction l generalizing acc with
  | nil => exact ⟨h1, h2⟩
  | cons z zs ih =>
    obtain ⟨hz1, hz2⟩ := hl z (List.mem_cons_self _ _)
    obtain ⟨ha1, ha2⟩ := F64.add_good acc z h1 h2 hz1 hz2
    exact ih _ ha1 ha2 fun w hw => hl w (List.mem_cons_of_mem _ hw)

theorem foldl_add_zeroF (l : List F64) (hl : ∀ z ∈ l, z = zeroF) :
    l.foldl F64.add zeroF = zeroF := by
  induction l with
  | nil => rfl
  | cons z zs ih =>
    rw [List.foldl_cons, hl z (List.mem_cons_self _ _), F64.add_zeroF]
    exact ih fun w hw => hl w (List.mem_cons_of_mem _ hw)

theorem v2mag_nonneg (a : Vector2) (hx : a.x ≠ F64.nan) (hy : a.y ≠ F64.nan) :
    F64.le zeroF a.magnitude = true := by
  obtain ⟨p1, p2⟩ := F64.sq_good a.x hx
  obtain ⟨q1, q2⟩ := F64.sq_good a.y hy
  obtain ⟨r1, r2⟩ := F64.add_good _ _ p1 p2 q1 q2
  obtain ⟨u1, u2⟩ := F64.sqrt_good _ r1 r2
  exact F64.le_zeroF_of_nonneg _ u1 u2

theorem v2mag_zero (a : Vector2) (hx : a.x.isZero = true)
    (hy : a.y.isZero = true) : a.magnitude = zeroF := by
  rw [Vector2.magnitude, F64.sq_zeroF a.x hx, F64.sq_zeroF a.y hy,
    F64.add_zeroF, F64.sqrt_zeroF]

theorem v3mag_nonneg (a : Vector3) (hx : a.x ≠ F64.nan) (hy : a.y ≠ F64.nan)
    (hz : a.z ≠ F64.nan) : F64.le zeroF a.magnitude = true := by
  obtain ⟨p1, p2⟩ := F64.sq_good a.x hx
  obtain ⟨q1, q2⟩ := F64.sq_good a.y hy
  obtain ⟨w1, w2⟩ := F64.sq_good a.z hz
  obtain ⟨r1, r2⟩ := F64.add_good _ _ p1 p2 q1 q2
  obtain ⟨r3, r4⟩ := F64.add_good _ _ r1 r2 w1 w2
  obtain ⟨u1, u2⟩ := F64.sqrt_good _ r3 r4
  exact F64.le_zeroF_of_nonneg _ u1 u2

theorem v3mag_zero (a : Vector3) (hx : a.x.isZero = true)
    (hy : a.y.isZero = true) (hz : a.z.isZero = true) :
    a.magnitude = zeroF := by
  rw [Vector3.magnitude, F64.sq_zeroF a.x hx, F64.sq_zeroF a.y hy,
    F64.sq_zeroF a.z hz, F64.add_zeroF, F64.add_zeroF, F64.sqrt_zeroF]

theorem v4mag_nonneg (v : Vector4) (ha : v.a ≠ F64.nan) (hb : v.b ≠ F64.nan)
    (hc : v.c ≠ F64.nan) (hd : v.d ≠ F64.nan) :
    F64.le zeroF v.magnitude = true := by
  obtain ⟨p1, p2⟩ := F64.sq_good v.a ha
  obtain ⟨q1, q2⟩ := F64.sq_good v.b hb
  obtain ⟨w1, w2⟩ := F64.sq_good v.c hc
  obtain ⟨x1, x2⟩ := F64.sq_good v.d hd
  obtain ⟨r1, r2⟩ := F64.add_good _ _ p1 p2 q1 q2
  obtain ⟨r3, r4⟩ := F64.add_good _ _ r1 r2 w1 w2
  obtain ⟨r5, r6⟩ := F64.add_good _ _ r3 r4 x1 x2
  obtain ⟨u1, u2⟩ := F64.sqrt_good _ r5 r6
  exact F64.le_zeroF_of_nonneg _ u1 u2

theorem v4mag_zero (v : Vector4) (ha : v.a.isZero = true)
    (hb : v.b.isZero = true) (hc : v.c.isZero = true)
    (hd : v.d.isZero = true) : v.magnitude = zeroF := by
  rw [Vector4.magnitude, F64.sq_zeroF v.a ha, F64.sq_zeroF v.b hb,
    F64.sq_zeroF v.c hc, F64.sq_zeroF v.d hd, F64.add_zeroF, F64.add_zeroF,
    F64.add_zeroF, F64.sqrt_zeroF]

theorem dynmag_nonneg (d : DynamicVector) (h : ∀ z ∈ d.data, z ≠ F64.nan) :
    F64.le zeroF d.magnitude = true := by
  have hsq : ∀ w ∈ d.data.map fun a => F64.mul a a,
      w.isNonneg = true ∧ w ≠ F64.nan := by
    intro w hw
    obtain ⟨z, hz, rfl⟩ := List.mem_map.mp hw
    exact F64.sq_good z (h z hz)
  obtain ⟨r1, r2⟩ := foldl_add_good _ zeroF rfl (by simp [zeroF]) hsq
  obtain ⟨u1, u2⟩ := F64.sqrt_good _ r1 r2
  exact F64.le_zeroF_of_nonneg _ u1 u2

theorem dynmag_zero (d : DynamicVector) (h : ∀ z ∈ d.data, z.isZero = true) :
    d.magnitude = zeroF := by
  rw [DynamicVector.magnitude, foldl_add_zeroF, F64.sqrt_zeroF]
  intro w hw
  obtain ⟨z, hz, rfl⟩ := List.mem_map.mp hw
  exact F64.sq_zeroF z (h z hz)

end B64

/-- C1: the claim fails twice on binary64.  For the vector (NaN, 0) the
magnitude is NaN and the IEEE comparison 0 <= NaN is false.  And for the
vector (t, 0) with t the least positive subnormal 2^-1074, the square of t
underflows to zero, so the magnitude is exactly 0 although the component t
is nonzero, refuting the only-if direction of the zero characterization. -/
theorem C1_counterexample :
    ¬ (F64.le zeroF (B64.Vector2.magnitude ⟨F64.nan, zeroF⟩) = true) ∧
    F64.beq (B64.Vector2.magnitude ⟨F64.finite false 1 EMIN, zeroF⟩) zeroF =
      true ∧
    (F64.finite false 1 EMIN).isZero = false := by
  refine ⟨by decide, by decide, by decide⟩

/-- C1 (amended): in the bit-accurate binary64 model: for every vector of
any of the four vector types with no NaN component, the magnitude satisfies
the IEEE comparison 0 <= m; and if every component is exactly 0 then the
magnitude compares IEEE-equal to 0.  (The converse of the zero direction is
false of binary64, because squares of tiny components underflow to zero.) -/
theorem C1_magnitude_nonneg_and_zero :
    (∀ a : B64.Vector2,
      (a.x ≠ F64.nan ∧ a.y ≠ F64.nan → F64.le zeroF a.magnitude = true) ∧
      (a.x.isZero = true ∧ a.y.isZero = true →
        F64.beq a.magnitude zeroF = true)) ∧
    (∀ a : B64.Vector3,
      (a.x ≠ F64.nan ∧ a.y ≠ F64.nan ∧ a.z ≠ F64.nan →
        F64.le zeroF a.magnitude = true) ∧
      (a.x.isZero = true ∧ a.y.isZero = true ∧ a.z.isZero = true →
        F64.beq a.magnitude zeroF = true)) ∧
    (∀ v : B64.Vector4,
      (v.a ≠ F64.nan ∧ v.b ≠ F64.nan ∧ v.c ≠ F64.nan ∧ v.d ≠ F64.nan →
        F64.le zeroF v.magnitude = true) ∧
      (v.a.isZero = true ∧ v.b.isZero = true ∧ v.c.isZero = true ∧
          v.d.isZero = true →
        F64.beq v.magnitude zeroF = true)) ∧
    (∀ d : B64.DynamicVector,
      ((∀ z ∈ d.data, z ≠ F64.nan) → F64.le zeroF d.magnitude = true) ∧
      ((∀ z ∈ d.data, z.isZero = true) →
        F64.beq d.magnitude zeroF = true)) := by
  refine ⟨fun a => ⟨fun h => B64.v2mag_nonneg a h.1 h.2, fun h => ?_⟩,
    fun a => ⟨fun h => B64.v3mag_nonneg a h.1 h.2.1 h.2.2, fun h => ?_⟩,
    fun v => ⟨fun h => B64.v4mag_nonneg v h.1 h.2.1 h.2.2.1 h.2.2.2,
      fun h => ?_⟩,
    fun d => ⟨fun h => B64.dynmag_nonneg d h, fun h => ?_⟩⟩
  · rw [B64.v2mag_zero a h.1 h.2]
    exact F64.beq_zeroF_self
  · rw [B64.v3mag_zero a h.1 h.2.1 h.2.2]
    exact F64.beq_zeroF_self
  · rw [B64.v4mag_zero v h.1 h.2.1 h.2.2.1 h.2.2.2]
    exact F64.beq_zeroF_self
  · rw [B64.dynmag_zero d h]
    exact F64.beq_zeroF_self

/-- C1 witness: the all-ones Vector2 (components with significand 2^52 and
exponent -52, i.e. the double 1.0) has no NaN component and its magnitude
satisfies the nonnegativity comparison; and the zero vector direction at
the zero Vector2. -/
theorem C1_witness :
    F64.le zeroF (B64.Vector2.magnitude
      ⟨F64.finite false (2 ^ 52) (-52), F64.finite false (2 ^ 52) (-52)⟩) =
      true ∧
    F64.beq (B64.Vector2.magnitude ⟨zeroF, zeroF⟩) zeroF = true :=
  ⟨(C1_magnitude_nonneg_and_zero.1
      ⟨F64.finite false (2 ^ 52) (-52), F64.finite false (2 ^ 52) (-52)⟩).1
      ⟨by decide, by decide⟩,
   (C1_magnitude_nonneg_and_zero.1 ⟨zeroF, zeroF⟩).2 ⟨by decide, by decide⟩⟩

/-- C2: the claim fails on binary64.  The vector (t, 0) with t the least
positive subnormal has magnitude exactly 0 (the square of t underflows),
yet normalize divides the nonzero component t by zero, which is +Infinity,
not NaN. -/
theorem C2_counterexample :
    F64.beq (B64.Vector2.magnitude ⟨F64.finite false 1 EMIN, zeroF⟩) zeroF =
      true ∧
    (B64.Vector2.normalize ⟨F64.finite false 1 EMIN, zeroF⟩).x = F64.inf := by
  refine ⟨by decide, by decide⟩

/-- C2 (amended): in the bit-accurate binary64 model, for every vector of
any of the four vector types all of whose components are exactly zero (the
zero vector, whose magnitude is exactly 0), normalization is an ordinary
total computation producing a vector of the same dimension, and every
component of the result is NaN, by the 0/0 division rule.  (For nonzero
vectors whose magnitude underflows to 0 the nonzero components become
infinities instead, see the counterexample.) -/
theorem C2_normalize_zero_vector_nan :
    (∀ a : B64.Vector2, a.x.isZero = true ∧ a.y.isZero = true →
      a.normalize = ⟨F64.nan, F64.nan⟩) ∧
    (∀ a : B64.Vector3,
      a.x.isZero = true ∧ a.y.isZero = true ∧ a.z.isZero = true →
      a.normalize = ⟨F64.nan, F64.nan, F64.nan⟩) ∧
    (∀ v : B64.Vector4,
      v.a.isZero = true ∧ v.b.isZero = true ∧ v.c.isZero = true ∧
        v.d.isZero = true →
      v.normalize = ⟨F64.nan, F64.nan, F64.nan, F64.nan⟩) ∧
    (∀ d : B64.DynamicVector, (∀ z ∈ d.data, z.isZero = true) →
      d.normalize.length = d.length ∧ ∀ z ∈ d.normalize.data, z = F64.nan) := by
  refine ⟨fun a h => ?_, fun a h => ?_, fun v h => ?_, fun d h => ⟨?_, ?_⟩⟩
  · rw [B64.Vector2.normalize, B64.v2mag_zero a h.1 h.2,
      F64.div_zero_zeroF a.x h.1, F64.div_zero_zeroF a.y h.2]
  · rw [B64.Vector3.normalize, B64.v3mag_zero a h.1 h.2.1 h.2.2,
      F64.div_zero_zeroF a.x h.1, F64.div_zero_zeroF a.y h.2.1,
      F64.div_zero_zeroF a.z h.2.2]
  · rw [B64.Vector4.normalize, B64.v4mag_zero v h.1 h.2.1 h.2.2.1 h.2.2.2,
      F64.div_zero_zeroF v.a h.1, F64.div_zero_zeroF v.b h.2.1,
      F64.div_zero_zeroF v.c h.2.2.1, F64.div_zero_zeroF v.d h.2.2.2]
  · simp [B64.DynamicVector.normalize, B64.DynamicVector.length]
  · intro z hz
    obtain ⟨w, hw, rfl⟩ := List.mem_map.mp hz
    rw [B64.dynmag_zero d h]
    exact F64.div_zero_zeroF w (h w hw)

/-- C2 witness: normalizing the zero Vector2 gives (NaN, NaN). -/
theorem C2_witness :
    B64.Vector2.normalize ⟨zeroF, zeroF⟩ = ⟨F64.nan, F64.nan⟩ :=
  C2_normalize_zero_vector_nan.1 ⟨zeroF, zeroF⟩ ⟨by decide, by decide⟩

/-- C6: the claim fails on binary64 even for all-finite vectors.  For the
vector whose three components are the double 2^652 (significand 2^52,
exponent 600), each product in cross(a, a) overflows to +Infinity, and
Inf - Inf is NaN, so cross(a, a) is (NaN, NaN, NaN), not the zero vector. -/
theorem C6_counterexample :
    (F64.finite false (2 ^ 52) 600).isFinite = true ∧
    B64.Vector3.cross
        ⟨F64.finite false (2 ^ 52) 600, F64.finite false (2 ^ 52) 600,
          F64.finite false (2 ^ 52) 600⟩
        ⟨F64.finite false (2 ^ 52) 600, F64.finite false (2 ^ 52) 600,
          F64.finite false (2 ^ 52) 600⟩ ≠
      ⟨zeroF, zeroF, zeroF⟩ := by
  refine ⟨by decide, by decide⟩

/-- C6 (amended): in the bit-accurate binary64 model, for vectors whose
components are finite doubles (finite, with 53-bit significands) and whose
pairwise component products do not overflow (each of the six products of
the cross-product formula is finite): cross(a,b) compares IEEE-equal to
-cross(b,a); and cross(a,b) is the zero vector whenever a and b are
parallel, i.e. one is an exact scalar multiple of the other (which covers
either being the zero vector).  Separately, cross(a,a) is the zero vector
whenever the three products of distinct components of a are finite. -/
theorem C6_cross_finite_no_overflow :
    (∀ a b : B64.Vector3,
      a.x.isF53 = true → a.y.isF53 = true → a.z.isF53 = true →
      b.x.isF53 = true → b.y.isF53 = true → b.z.isF53 = true →
      (a.y.mul b.z).isFinite = true → (a.z.mul b.y).isFinite = true →
      (a.z.mul b.x).isFinite = true → (a.x.mul b.z).isFinite = true →
      (a.x.mul b.y).isFinite = true → (a.y.mul b.x).isFinite = true →
      B64.Vector3.beq (B64.Vector3.cross a b)
          (B64.Vector3.neg (B64.Vector3.cross b a)) = true ∧
      (((∃ k : ℚ, F64.val b.x = k * F64.val a.x ∧
            F64.val b.y = k * F64.val a.y ∧ F64.val b.z = k * F64.val a.z) ∨
          (∃ k : ℚ, F64.val a.x = k * F64.val b.x ∧
            F64.val a.y = k * F64.val b.y ∧ F64.val a.z = k * F64.val b.z)) →
        B64.Vector3.cross a b = ⟨zeroF, zeroF, zeroF⟩)) ∧
    (∀ a : B64.Vector3,
      (a.y.mul a.z).isFinite = true → (a.z.mul a.x).isFinite = true →
      (a.x.mul a.y).isFinite = true →
      B64.Vector3.cross a a = ⟨zeroF, zeroF, zeroF⟩) := by
  constructor
  · intro a b hax hay haz hbx hby hbz hp1 hp2 hp3 hp4 hp5 hp6
    obtain ⟨c1, n1, u1, e1⟩ := F64.isFinite_elim _ hp1
    obtain ⟨c2, n2, u2, e2⟩ := F64.isFinite_elim _ hp2
    obtain ⟨c3, n3, u3, e3⟩ := F64.isFinite_elim _ hp3
    obtain ⟨c4, n4, u4, e4⟩ := F64.isFinite_elim _ hp4
    obtain ⟨c5, n5, u5, e5⟩ := F64.isFinite_elim _ hp5
    obtain ⟨c6, n6, u6, e6⟩ := F64.isFinite_elim _ hp6
    constructor
    · have k1 : F64.beq ((a.y.mul b.z).sub (a.z.mul b.y))
          (((b.y.mul a.z).sub (b.z.mul a.y)).neg) = true := by
        rw [F64.mul_comm64 b.y a.z, F64.mul_comm64 b.z a.y, e1, e2,
          ← F64.sub_antisym_finite]
        exact F64.beq_self_ne_nan _ (F64.sub_finite_ne_nan _ _ _ _ _ _)
      have k2 : F64.beq ((a.z.mul b.x).sub (a.x.mul b.z))
          (((b.z.mul a.x).sub (b.x.mul a.z)).neg) = true := by
        rw [F64.mul_comm64 b.z a.x, F64.mul_comm64 b.x a.z, e3, e4,
          ← F64.sub_antisym_finite]
        exact F64.beq_self_ne_nan _ (F64.sub_finite_ne_nan _ _ _ _ _ _)
      have k3 : F64.beq ((a.x.mul b.y).sub (a.y.mul b.x))
          (((b.x.mul a.y).sub (b.y.mul a.x)).neg) = true := by
        rw [F64.mul_comm64 b.x a.y, F64.mul_comm64 b.y a.x, e5, e6,
          ← F64.sub_antisym_finite]
        exact F64.beq_self_ne_nan _ (F64.sub_finite_ne_nan _ _ _ _ _ _)
      simp only [B64.Vector3.cross, B64.Vector3.neg, B64.Vector3.beq]
      rw [k1, k2, k3]
      rfl
    · rintro (⟨k, hkx, hky, hkz⟩ | ⟨k, hkx, hky, hkz⟩)
      · have d1 : a.y.mul b.z = a.z.mul b.y := by
          refine F64.mul_val_eq _ _ _ _ hay hbz haz hby ?_
          rw [hkz, hky]
          ring
        have d2 : a.z.mul b.x = a.x.mul b.z := by
          refine F64.mul_val_eq _ _ _ _ haz hbx hax hbz ?_
          rw [hkx, hkz]
          ring
        have d3 : a.x.mul b.y = a.y.mul b.x := by
          refine F64.mul_val_eq _ _ _ _ hax hby hay hbx ?_
          rw [hky, hkx]
          ring
        simp only [B64.Vector3.cross]
        rw [d1, e2, d2, e4, d3, e6, F64.sub_self_finite, F64.sub_self_finite,
          F64.sub_self_finite]
      · have d1 : a.y.mul b.z = a.z.mul b.y := by
          refine F64.mul_val_eq _ _ _ _ hay hbz haz hby ?_
          rw [hky, hkz]
          ring
        have d2 : a.z.mul b.x = a.x.mul b.z := by
          refine F64.mul_val_eq _ _ _ _ haz hbx hax hbz ?_
          rw [hkz, hkx]
          ring
        have d3 : a.x.mul b.y = a.y.mul b.x := by
          refine F64.mul_val_eq _ _ _ _ hax hby hay hbx ?_
          rw [hkx, hky]
          ring
        simp only [B64.Vector3.cross]
        rw [d1, e2, d2, e4, d3, e6, F64.sub_self_finite, F64.sub_self_finite,
          F64.sub_self_finite]
  · intro a h1 h2 h3
    obtain ⟨s1, m1, t1, e1⟩ := F64.isFinite_elim _ h1
    obtain ⟨s2, m2, t2, e2⟩ := F64.isFinite_elim _ h2
    obtain ⟨s3, m3, t3, e3⟩ := F64.isFinite_elim _ h3
    have cx : (a.y.mul a.z).sub (a.z.mul a.y) = zeroF := by
      rw [F64.mul_comm64 a.z a.y, e1, F64.sub_self_finite]
    have cy : (a.z.mul a.x).sub (a.x.mul a.z) = zeroF := by
      rw [F64.mul_comm64 a.x a.z, e2, F64.sub_self_finite]
    have cz : (a.x.mul a.y).sub (a.y.mul a.x) = zeroF := by
      rw [F64.mul_comm64 a.y a.x, e3, F64.sub_self_finite]
    simp only [B64.Vector3.cross]
    rw [cx, cy, cz]

/-- C6 witness: the all-ones vector (components the double 1.0) is an exact
scalar multiple of itself with factor 1; all products are finite, and the
cross product with itself is the zero vector. -/
theorem C6_witness :
    B64.Vector3.cross
        ⟨F64.finite false (2 ^ 52) (-52), F64.finite false (2 ^ 52) (-52),
          F64.finite false (2 ^ 52) (-52)⟩
        ⟨F64.finite false (2 ^ 52) (-52), F64.finite false (2 ^ 52) (-52),
          F64.finite false (2 ^ 52) (-52)⟩ = ⟨zeroF, zeroF, zeroF⟩ :=
  (C6_cross_finite_no_overflow.1
      ⟨F64.finite false (2 ^ 52) (-52), F64.finite false (2 ^ 52) (-52),
        F64.finite false (2 ^ 52) (-52)⟩
      ⟨F64.finite false (2 ^ 52) (-52), F64.finite false (2 ^ 52) (-52),
        F64.finite false (2 ^ 52) (-52)⟩
      (by decide) (by decide) (by decide) (by decide) (by decide) (by decide)
      (by decide) (by decide) (by decide) (by decide) (by decide)
      (by decide)).2
    (Or.inl ⟨1, (one_mul _).symm, (one_mul _).symm, (one_mul _).symm⟩)

end LibVector
